import Mathlib

/-!
Verification of the Connect-4 core of this repository (`src/connect4.py`):
board helpers, win detection, terminal evaluation, the heuristic evaluator,
and the minimax search with alpha-beta pruning.  Boards are embedded as total
functions from (row, column) to the integer stored in the numpy array; the
program only ever reads indices with row < 6 and column < 7.  Python's
`math.inf` / `-math.inf` scores are embedded as the top and bottom elements of
`WithBot (WithTop ℤ)`.  The one source of randomness, `random.choice`, is
embedded as an explicit choice function `pick` assumed to return a member of
any non-empty list it is given.
-/

set_option maxHeartbeats 1600000

namespace Connect4

def ROW_COUNT : ℕ := 6
def COLUMN_COUNT : ℕ := 7
def EMPTY : ℤ := 0
def PLAYER : ℤ := 1
def COMPUTER : ℤ := 2
def AI_DEPTH : ℕ := 5

/-- A board is a total function from (row, column) to the cell value.  Row 0 is
the bottom row.  The program reads only indices with row < 6, column < 7. -/
def Board : Type := ℕ → ℕ → ℤ

/-- Embedding of `create_board`: an all-zero (all-EMPTY) grid. -/
def create_board : Board := fun _ _ => 0

/-- Embedding of the numpy cell assignment `board[row, column] = v`. -/
def setCell (b : Board) (r c : ℕ) (v : ℤ) : Board :=
  fun r' c' => if r' = r ∧ c' = c then v else b r' c'

/-- Embedding of `check_available_row(board, column)`: `none` when the column
index is out of range or the column is full, otherwise the first (bottom-most)
row index whose cell is EMPTY.  The column argument is an integer because the
source guards `column < 0 or column >= COLUMN_COUNT` on a raw Python int. -/
def check_available_row (b : Board) (column : ℤ) : Option ℕ :=
  if column < 0 ∨ (COLUMN_COUNT : ℤ) ≤ column then none
  else (List.range ROW_COUNT).find? (fun r => b r column.toNat == EMPTY)

/-- Embedding of `valid_locations(board)`: all non-full columns, left to right. -/
def valid_locations (b : Board) : List ℕ :=
  (List.range COLUMN_COUNT).filter (fun c => (check_available_row b c).isSome)

/-- Embedding of `place_piece(board, column, row, player_value)`: returns the
updated board together with the boolean the Python function returns.  When
`row` is `None` the board is returned unchanged and the result is `False`. -/
def place_piece (b : Board) (column : ℤ) (row : Option ℕ) (v : ℤ) : Board × Bool :=
  match row with
  | none => (b, false)
  | some r => (setCell b r column.toNat v, true)

/-- Embedding of `board_full(board)`: no cell of the 6×7 grid is EMPTY. -/
def board_full (b : Board) : Bool :=
  (List.range ROW_COUNT).all fun r =>
    (List.range COLUMN_COUNT).all fun c => !(b r c == EMPTY)

/-- Embedding of `check_win(board, piece_row, piece_column)`: scans horizontal
4-windows in the piece's row, vertical 4-windows in the piece's column, and
both diagonal directions over the whole board, for 4 cells equal to the piece
at `(piece_row, piece_column)`. -/
def check_win (b : Board) (piece_row piece_column : ℕ) : Bool :=
  let piece := b piece_row piece_column
  ((List.range (COLUMN_COUNT - 3)).any fun c =>
    (List.range 4).all fun i => b piece_row (c + i) == piece) ||
  ((List.range (ROW_COUNT - 3)).any fun r =>
    (List.range 4).all fun i => b (r + i) piece_column == piece) ||
  ((List.range (ROW_COUNT - 3)).any fun r =>
    (List.range (COLUMN_COUNT - 3)).any fun c =>
      (List.range 4).all fun i => b (r + i) (c + i) == piece) ||
  ((List.range (ROW_COUNT - 3)).any fun r =>
    (List.range (COLUMN_COUNT - 3)).any fun c =>
      (List.range 4).all fun i => b (r + 3 - i) (c + i) == piece)

/-- Embedding of `check_any_win(board, player_value)`: some cell holds the
given value and `check_win` fires at it. -/
def check_any_win (b : Board) (player_value : ℤ) : Bool :=
  (List.range ROW_COUNT).any fun r =>
    (List.range COLUMN_COUNT).any fun c =>
      b r c == player_value && check_win b r c

/-- Embedding of `is_terminal(board)`: `(game_over, winner)` with the PLAYER
checked before the COMPUTER, then draw on a full board. -/
def is_terminal (b : Board) : Bool × Option ℤ :=
  if check_any_win b PLAYER then (true, some PLAYER)
  else if check_any_win b COMPUTER then (true, some COMPUTER)
  else if board_full b then (true, none)
  else (false, none)

/-- Embedding of `peek_score(window, player_value)`: the two independent
if-chains of the source, the first adding, the second subtracting. -/
def peek_score (window : List ℤ) (player_value : ℤ) : ℤ :=
  let opp := if player_value == COMPUTER then PLAYER else COMPUTER
  let base :=
    if window.count player_value == 4 then (100000 : ℤ)
    else if window.count player_value == 3 && window.count EMPTY == 1 then 100
    else if window.count player_value == 2 && window.count EMPTY == 2 then 10
    else 0
  let pen :=
    if window.count opp == 3 && window.count EMPTY == 1 then (120 : ℤ)
    else if window.count opp == 2 && window.count EMPTY == 2 then 15
    else 0
  base - pen

/-- Embedding of `position_score(board, player_value)`: center-column bonus
plus `peek_score` over every horizontal, vertical and diagonal 4-window. -/
def position_score (b : Board) (player_value : ℤ) : ℤ :=
  let center := (List.range ROW_COUNT).map fun r => b r (COLUMN_COUNT / 2)
  10 * (center.count player_value : ℤ)
  + (((List.range ROW_COUNT).map fun r =>
      ((List.range (COLUMN_COUNT - 3)).map fun c =>
        peek_score ((List.range 4).map fun i => b r (c + i)) player_value).sum).sum)
  + (((List.range COLUMN_COUNT).map fun c =>
      ((List.range (ROW_COUNT - 3)).map fun r =>
        peek_score ((List.range 4).map fun i => b (r + i) c) player_value).sum).sum)
  + (((List.range (ROW_COUNT - 3)).map fun r =>
      ((List.range (COLUMN_COUNT - 3)).map fun c =>
        peek_score ((List.range 4).map fun i => b (r + i) (c + i)) player_value).sum).sum)
  + (((List.range (ROW_COUNT - 3)).map fun r =>
      ((List.range (COLUMN_COUNT - 3)).map fun c =>
        peek_score ((List.range 4).map fun i => b (r + 3 - i) (c + i)) player_value).sum).sum)

/-- Embedding of the `while` loop of `ordered_columns`, with explicit fuel
(the loop adds at least one column per iteration, so `COLUMN_COUNT` rounds
suffice). -/
def ordered_columns_loop (center : ℕ) : ℕ → ℕ → List ℕ → List ℕ
  | 0, _, order => order
  | fuel + 1, offset, order =>
    if order.length < COLUMN_COUNT then
      let order1 := if offset ≤ center then order ++ [center - offset] else order
      let order2 := if center + offset < COLUMN_COUNT then order1 ++ [center + offset] else order1
      ordered_columns_loop center fuel (offset + 1) order2
    else order

/-- Embedding of `ordered_columns()`: center first, then expanding outward. -/
def ordered_columns : List ℕ :=
  ordered_columns_loop (COLUMN_COUNT / 2) COLUMN_COUNT 1 [COLUMN_COUNT / 2]

/-- Embedding of `simulate_drop(board, col, player_value)`: `none` models the
Python `(None, None)` result; otherwise the fresh board copy and landing row. -/
def simulate_drop (b : Board) (col : ℕ) (player_value : ℤ) : Option (Board × ℕ) :=
  match check_available_row b col with
  | none => none
  | some r => some ((place_piece b col (some r) player_value).1, r)

/-- Embedding of `winning_moves(board, player_value)`: the valid columns whose
simulated drop produces an immediate `check_win`. -/
def winning_moves (b : Board) (player_value : ℤ) : List ℕ :=
  (valid_locations b).filter fun c =>
    match simulate_drop b c player_value with
    | some (tmp, r) => check_win tmp r c
    | none => false

/-- Convenience predicate: dropping into `c` for `player_value` immediately
wins (the filter condition of `winning_moves`). -/
def wins_now (b : Board) (c : ℕ) (player_value : ℤ) : Bool :=
  match simulate_drop b c player_value with
  | some (tmp, r) => check_win tmp r c
  | none => false

/-- Scores are Python floats restricted to what the search produces: integers
plus `math.inf` (⊤) and `-math.inf` (⊥). -/
abbrev Score := WithBot (WithTop ℤ)

/-- Coercion of an integer heuristic value into `Score`. -/
def intScore (z : ℤ) : Score := ((z : WithTop ℤ) : Score)

/-- Embedding of the assumption on `random.choice`: it returns an element of
any non-empty list it is given. -/
def pickOK (pick : List ℕ → ℕ) : Prop := ∀ l : List ℕ, l ≠ [] → pick l ∈ l

/-- The board produced by `simulate_drop` (the fresh copy); the argument board
itself when the drop fails, a case the search never reaches because it only
drops into valid columns. -/
def dropB (b : Board) (c : ℕ) (player_value : ℤ) : Board :=
  match simulate_drop b c player_value with
  | some (tmp, _) => tmp
  | none => b

/-- Embedding of the early-shortcut loops of `minimax`: the first ordered
column whose simulated drop is an immediate win, if any. -/
def winShortcut (b : Board) (player_value : ℤ) : List ℕ → Option ℕ
  | [] => none
  | c :: rest =>
    match simulate_drop b c player_value with
    | some (tmp, r) => if check_win tmp r c then some c else winShortcut b player_value rest
    | none => winShortcut b player_value rest

/-- Embedding of the maximizing for-loop of `minimax`: `f c alpha beta` is the
score of the recursive call on column `c`; the loop updates `(value, best_col)`
on strict improvement, raises `alpha`, and breaks once `alpha >= beta`. -/
def maxLoop (f : ℕ → Score → Score → Score) :
    List ℕ → Score → Option ℕ → Score → Score → Score × Option ℕ
  | [], value, best, _, _ => (value, best)
  | c :: rest, value, best, alpha, beta =>
    let ns := f c alpha beta
    let value1 := if value < ns then ns else value
    let best1 := if value < ns then some c else best
    let alpha1 := max alpha value1
    if beta ≤ alpha1 then (value1, best1)
    else maxLoop f rest value1 best1 alpha1 beta

/-- Embedding of the minimizing for-loop of `minimax`: updates on strict
decrease, lowers `beta`, and breaks once `alpha >= beta`. -/
def minLoop (f : ℕ → Score → Score → Score) :
    List ℕ → Score → Option ℕ → Score → Score → Score × Option ℕ
  | [], value, best, _, _ => (value, best)
  | c :: rest, value, best, alpha, beta =>
    let ns := f c alpha beta
    let value1 := if ns < value then ns else value
    let best1 := if ns < value then some c else best
    let beta1 := min beta value1
    if beta1 ≤ alpha then (value1, best1)
    else minLoop f rest value1 best1 alpha beta1

/-- Embedding of the leaf evaluation of `minimax` (the `depth == 0 or
game_over` branch): ±∞ on a decided game, 0 on a draw, otherwise the heuristic
score from the COMPUTER's perspective. -/
def leaf_value (b : Board) : Score :=
  let t := is_terminal b
  if t.1 then
    if t.2 == some COMPUTER then (⊤ : Score)
    else if t.2 == some PLAYER then (⊥ : Score)
    else intScore 0
  else intScore (position_score b COMPUTER)

/-- The move ordering of `minimax`: the center-out column ordering restricted
to the currently valid columns (`[c for c in ordered_columns() if c in valid]`). -/
def search_order (b : Board) : List ℕ :=
  ordered_columns.filter fun c => (valid_locations b).contains c

/-- Embedding of `minimax(board, depth, alpha, beta, maximizing)`: returns
`(score, chosen column)`.  The `pick` argument stands for `random.choice` in
the no-candidate fallback. -/
def minimax (pick : List ℕ → ℕ) : ℕ → Board → Score → Score → Bool → Score × Option ℕ
  | 0, b, _, _, _ => (leaf_value b, none)
  | d + 1, b, alpha, beta, maximizing =>
    if (is_terminal b).1 then (leaf_value b, none)
    else
      if maximizing then
        match winShortcut b COMPUTER (search_order b) with
        | some c => ((⊤ : Score), some c)
        | none =>
          match maxLoop (fun c a bt => (minimax pick d (dropB b c COMPUTER) a bt false).1)
              (search_order b) ⊥ none alpha beta with
          | (v, some c) => (v, some c)
          | (v, none) => (v, some (pick (valid_locations b)))
      else
        match winShortcut b PLAYER (search_order b) with
        | some c => ((⊥ : Score), some c)
        | none =>
          match minLoop (fun c a bt => (minimax pick d (dropB b c PLAYER) a bt true).1)
              (search_order b) ⊤ none alpha beta with
          | (v, some c) => (v, some c)
          | (v, none) => (v, some (pick (valid_locations b)))

/-- Reference fold for plain minimax without pruning, per the spec's words:
track the best (max) score seen so far, no alpha-beta window, no break. -/
def plainMaxFold (f : ℕ → Score) : List ℕ → Score → Option ℕ → Score × Option ℕ
  | [], value, best => (value, best)
  | c :: rest, value, best =>
    let ns := f c
    if value < ns then plainMaxFold f rest ns (some c)
    else plainMaxFold f rest value best

/-- Reference fold for plain minimax without pruning, minimizing side. -/
def plainMinFold (f : ℕ → Score) : List ℕ → Score → Option ℕ → Score × Option ℕ
  | [], value, best => (value, best)
  | c :: rest, value, best =>
    let ns := f c
    if ns < value then plainMinFold f rest ns (some c)
    else plainMinFold f rest value best

/-- Reference plain minimax, following the spec's words for claim C5: the same
recursion as `minimax` but with no alpha-beta window and no pruning break;
everything else (terminal handling, move ordering, immediate-win shortcut,
no-candidate fallback) unchanged. -/
def plain_minimax (pick : List ℕ → ℕ) : ℕ → Board → Bool → Score × Option ℕ
  | 0, b, _ => (leaf_value b, none)
  | d + 1, b, maximizing =>
    if (is_terminal b).1 then (leaf_value b, none)
    else
      if maximizing then
        match winShortcut b COMPUTER (search_order b) with
        | some c => ((⊤ : Score), some c)
        | none =>
          match plainMaxFold (fun c => (plain_minimax pick d (dropB b c COMPUTER) false).1)
              (search_order b) ⊥ none with
          | (v, some c) => (v, some c)
          | (v, none) => (v, some (pick (valid_locations b)))
      else
        match winShortcut b PLAYER (search_order b) with
        | some c => ((⊥ : Score), some c)
        | none =>
          match plainMinFold (fun c => (plain_minimax pick d (dropB b c PLAYER) true).1)
              (search_order b) ⊤ none with
          | (v, some c) => (v, some c)
          | (v, none) => (v, some (pick (valid_locations b)))

/-- Embedding of `ai_best_move(board)`: win now, else block the opponent's
win, else search; `wins[0]` is the head of the corresponding list. -/
def ai_best_move (pick : List ℕ → ℕ) (b : Board) : ℕ :=
  match winning_moves b COMPUTER with
  | c :: _ => c
  | [] =>
    match winning_moves b PLAYER with
    | c :: _ => c
    | [] =>
      match (minimax pick AI_DEPTH b ⊥ ⊤ true).2 with
      | some c => c
      | none => pick (valid_locations b)

/-! ### Basic facts about `check_available_row` -/

lemma range_find?_some {n r : ℕ} {p : ℕ → Bool} (h : (List.range n).find? p = some r) :
    r < n ∧ p r = true ∧ ∀ j < r, p j = false := by
  induction n with
  | zero => simp [List.range_zero] at h
  | succ n ih =>
    rw [List.range_succ, List.find?_append] at h
    cases hn : (List.range n).find? p with
    | some r0 =>
      rw [hn] at h
      simp only [Option.or_some] at h
      obtain ⟨h1, h2, h3⟩ := ih (hn.trans (by rw [h]))
      exact ⟨Nat.lt_succ_of_lt h1, h2, h3⟩
    | none =>
      rw [hn] at h
      simp only [Option.none_or] at h
      have hall : ∀ x ∈ List.range n, ¬ p x = true := List.find?_eq_none.mp hn
      by_cases hp : p n
      · simp only [List.find?, hp] at h
        obtain rfl : n = r := by simpa using h
        refine ⟨Nat.lt_succ_self n, hp, ?_⟩
        intro j hj
        have := hall j (List.mem_range.mpr hj)
        simpa using this
      · simp only [List.find?, Bool.not_eq_true] at hp
        simp [List.find?, hp] at h

lemma check_available_row_some {b : Board} {col : ℤ} {r : ℕ}
    (h : check_available_row b col = some r) :
    0 ≤ col ∧ col < COLUMN_COUNT ∧ r < ROW_COUNT ∧ b r col.toNat = EMPTY ∧
      ∀ j < r, b j col.toNat ≠ EMPTY := by
  unfold check_available_row at h
  split at h
  · exact absurd h (by simp)
  · next hrange =>
    push_neg at hrange
    obtain ⟨h1, h2, h3⟩ := range_find?_some h
    refine ⟨hrange.1, hrange.2, h1, by simpa using h2, ?_⟩
    intro j hj
    have := h3 j hj
    simpa using this

lemma check_available_row_none_of_full {b : Board} {col : ℤ}
    (h : ∀ j < ROW_COUNT, b j col.toNat ≠ EMPTY) :
    check_available_row b col = none := by
  unfold check_available_row
  split
  · rfl
  · rw [List.find?_eq_none]
    intro x hx
    simp only [List.mem_range] at hx
    simpa using h x hx

/-! ### Claim C9: out-of-range or full-column placements are rejected no-ops -/

/-- C9: for every board and every column choice that is out of range or whose
column is full, `check_available_row` returns `none`, and feeding that result
to `place_piece` reports failure and leaves the board completely unchanged. -/
theorem placement_rejected_is_noop (b : Board) (col : ℤ) (v : ℤ)
    (h : col < 0 ∨ (COLUMN_COUNT : ℤ) ≤ col ∨ ∀ j < ROW_COUNT, b j col.toNat ≠ EMPTY) :
    check_available_row b col = none ∧
      place_piece b col (check_available_row b col) v = (b, false) := by
  have hnone : check_available_row b col = none := by
    rcases h with h | h | h
    · unfold check_available_row
      rw [if_pos (Or.inl h)]
    · unfold check_available_row
      rw [if_pos (Or.inr h)]
    · exact check_available_row_none_of_full h
  refine ⟨hnone, ?_⟩
  rw [hnone]
  rfl

/-- Witness for C9 at the concrete out-of-range column −1 of the empty board. -/
theorem placement_rejected_is_noop_witness :
    ((-1 : ℤ) < 0 ∨ (COLUMN_COUNT : ℤ) ≤ -1 ∨
        ∀ j < ROW_COUNT, create_board j (Int.toNat (-1)) ≠ EMPTY) ∧
      check_available_row create_board (-1) = none ∧
        place_piece create_board (-1) (check_available_row create_board (-1)) PLAYER =
          (create_board, false) :=
  ⟨Or.inl (by decide),
   placement_rejected_is_noop create_board (-1) PLAYER (Or.inl (by decide))⟩

/-! ### Claim C7: gravity and the no-floating-piece invariant -/

/-- Specification predicate: the board has no non-empty cell directly above an
empty cell of the same column (within the 6×7 grid). -/
def no_floating (b : Board) : Prop :=
  ∀ r c, r + 1 < ROW_COUNT → c < COLUMN_COUNT → b (r + 1) c ≠ EMPTY → b r c ≠ EMPTY

/-- One game-loop drop attempt: compute the landing row of the chosen column
and call `place_piece` with it, as the game loops of the source do. -/
def play_move (b : Board) (m : ℤ × ℤ) : Board :=
  (place_piece b m.1 (check_available_row b m.1) m.2).1

/-- A whole sequence of drop attempts starting from the empty board. -/
def play (moves : List (ℤ × ℤ)) : Board :=
  moves.foldl play_move create_board

lemma no_floating_play_move {b : Board} (hb : no_floating b) (m : ℤ × ℤ) :
    no_floating (play_move b m) := by
  unfold play_move place_piece
  cases hrow : check_available_row b m.1 with
  | none => simpa using hb
  | some r =>
    obtain ⟨-, -, -, hempty, hbelow⟩ := check_available_row_some hrow
    intro r' c' hr' hc' habove
    simp only [setCell] at habove ⊢
    by_cases hset : r' = r ∧ c' = m.1.toNat
    · exfalso
      obtain ⟨h1, h2⟩ := hset
      subst h1
      subst h2
      rw [if_neg (by omega)] at habove
      exact hb _ _ hr' hc' habove hempty
    · rw [if_neg hset]
      by_cases hup : r' + 1 = r ∧ c' = m.1.toNat
      · exact hup.2 ▸ hbelow r' (by omega)
      · rw [if_neg hup] at habove
        exact hb r' c' hr' hc' habove

/-- C7: every sequence of drop attempts from the empty board yields a board
with no floating piece, and every accepted drop lands at the lowest empty row
of its chosen column (the landing row is empty and no smaller row of that
column is empty). -/
theorem drops_land_low_and_never_float (moves : List (ℤ × ℤ)) :
    no_floating (play moves) ∧
      ∀ (b : Board) (col : ℤ) (r : ℕ), check_available_row b col = some r →
        b r col.toNat = EMPTY ∧ ∀ r2, b r2 col.toNat = EMPTY → r ≤ r2 := by
  constructor
  · have : ∀ (ms : List (ℤ × ℤ)) (b : Board), no_floating b → no_floating (ms.foldl play_move b) := by
      intro ms
      induction ms with
      | nil => intro b hb; exact hb
      | cons m rest ih => intro b hb; exact ih _ (no_floating_play_move hb m)
    refine this moves create_board ?_
    intro r c _ _ habove
    exact absurd rfl habove
  · intro b col r h
    obtain ⟨-, -, -, hempty, hbelow⟩ := check_available_row_some h
    refine ⟨hempty, ?_⟩
    intro r2 h2
    by_contra hlt
    exact hbelow r2 (by omega) h2

/-- Witness for C7: two drops into column 3; the second lands on row 1, and
`check_available_row` then reports row 2 as the lowest empty row. -/
theorem drops_land_low_and_never_float_witness :
    no_floating (play [((3 : ℤ), PLAYER), ((3 : ℤ), COMPUTER)]) ∧
      check_available_row (play [((3 : ℤ), PLAYER), ((3 : ℤ), COMPUTER)]) 3 = some 2 ∧
      (play [((3 : ℤ), PLAYER), ((3 : ℤ), COMPUTER)]) 2 (Int.toNat 3) = EMPTY ∧
      ∀ r2, (play [((3 : ℤ), PLAYER), ((3 : ℤ), COMPUTER)]) r2 (Int.toNat 3) = EMPTY → 2 ≤ r2 := by
  have h := drops_land_low_and_never_float [((3 : ℤ), PLAYER), ((3 : ℤ), COMPUTER)]
  have hrow : check_available_row (play [((3 : ℤ), PLAYER), ((3 : ℤ), COMPUTER)]) 3 = some 2 := by
    decide
  obtain ⟨he, hl⟩ := h.2 _ 3 2 hrow
  exact ⟨h.1, hrow, he, hl⟩

/-! ### Claim C1: what `check_win` actually detects -/

/-- Specification predicate of claim C1: a run of at least 4 cells equal to
the piece at `(r, c)`, along one of the four axes, passing through `(r, c)`
(equivalently: some 4-window through `(r, c)` whose cells all equal that
piece). -/
def wins_through (b : Board) (r c : ℕ) : Prop :=
  (∃ c0, c0 + 3 < COLUMN_COUNT ∧ c0 ≤ c ∧ c ≤ c0 + 3 ∧ ∀ i < 4, b r (c0 + i) = b r c) ∨
  (∃ r0, r0 + 3 < ROW_COUNT ∧ r0 ≤ r ∧ r ≤ r0 + 3 ∧ ∀ i < 4, b (r0 + i) c = b r c) ∨
  (∃ r0 c0, r0 + 3 < ROW_COUNT ∧ c0 + 3 < COLUMN_COUNT ∧
    (∃ i < 4, r = r0 + i ∧ c = c0 + i) ∧ ∀ i < 4, b (r0 + i) (c0 + i) = b r c) ∨
  (∃ r0 c0, r0 + 3 < ROW_COUNT ∧ c0 + 3 < COLUMN_COUNT ∧
    (∃ i < 4, r = r0 + 3 - i ∧ c = c0 + i) ∧ ∀ i < 4, b (r0 + 3 - i) (c0 + i) = b r c)

/-- A horizontal 4-window of cells equal to `p` inside row `r`. -/
def row_window (b : Board) (r : ℕ) (p : ℤ) : Prop :=
  ∃ c0, c0 + 3 < COLUMN_COUNT ∧ ∀ i < 4, b r (c0 + i) = p

/-- A vertical 4-window of cells equal to `p` inside column `c`. -/
def col_window (b : Board) (c : ℕ) (p : ℤ) : Prop :=
  ∃ r0, r0 + 3 < ROW_COUNT ∧ ∀ i < 4, b (r0 + i) c = p

/-- A diagonal 4-window of cells equal to `p`, of either direction, anywhere
on the board. -/
def diag_window (b : Board) (p : ℤ) : Prop :=
  ∃ r0 c0, r0 + 3 < ROW_COUNT ∧ c0 + 3 < COLUMN_COUNT ∧
    ((∀ i < 4, b (r0 + i) (c0 + i) = p) ∨ (∀ i < 4, b (r0 + 3 - i) (c0 + i) = p))

lemma check_win_iff (b : Board) (r c : ℕ) :
    check_win b r c = true ↔
      row_window b r (b r c) ∨ col_window b c (b r c) ∨ diag_window b (b r c) := by
  simp only [check_win, Bool.or_eq_true, List.any_eq_true, List.all_eq_true, List.mem_range,
    beq_iff_eq, row_window, col_window, diag_window, ROW_COUNT, COLUMN_COUNT]
  constructor
  · rintro (((⟨c0, hc0, hall⟩ | ⟨r0, hr0, hall⟩) | ⟨r0, hr0, c0, hc0, hall⟩) |
      ⟨r0, hr0, c0, hc0, hall⟩)
    · exact Or.inl ⟨c0, by omega, hall⟩
    · exact Or.inr (Or.inl ⟨r0, by omega, hall⟩)
    · exact Or.inr (Or.inr ⟨r0, c0, by omega, by omega, Or.inl hall⟩)
    · exact Or.inr (Or.inr ⟨r0, c0, by omega, by omega, Or.inr hall⟩)
  · rintro (⟨c0, hc0, hall⟩ | ⟨r0, hr0, hall⟩ | ⟨r0, c0, hr0, hc0, hall | hall⟩)
    · exact Or.inl (Or.inl (Or.inl ⟨c0, by omega, hall⟩))
    · exact Or.inl (Or.inl (Or.inr ⟨r0, by omega, hall⟩))
    · exact Or.inl (Or.inr ⟨r0, by omega, c0, by omega, hall⟩)
    · exact Or.inr ⟨r0, by omega, c0, by omega, hall⟩

/-- Board refuting claim C1: row 0 holds the pieces `1 1 1 1 . . 1`. -/
def cexWin : Board := fun r c => if r = 0 ∧ (c ≤ 3 ∨ c = 6) then 1 else 0

/-- Counterexample to C1 as stated: the cell `(0, 6)` is non-empty and
`check_win` fires at it, yet no run of 4 identical pieces passes through
`(0, 6)` (the horizontal window found lies in columns 0–3 of the same row). -/
theorem check_win_not_through_cell :
    cexWin 0 6 ≠ EMPTY ∧ check_win cexWin 0 6 = true ∧ ¬ wins_through cexWin 0 6 := by
  refine ⟨by decide, by decide, ?_⟩
  rintro (⟨c0, h1, h2, h3, hall⟩ | ⟨r0, h1, h2, h3, hall⟩ |
    ⟨r0, c0, h1, h2, ⟨i, hi, hri, hci⟩, hall⟩ | ⟨r0, c0, h1, h2, ⟨i, hi, hri, hci⟩, hall⟩)
  · obtain rfl : c0 = 3 := by
      revert h1 h2 h3
      simp only [COLUMN_COUNT]
      omega
    exact absurd (hall 1 (by omega)) (by decide)
  · obtain rfl : r0 = 0 := by omega
    exact absurd (hall 1 (by omega)) (by decide)
  · exfalso
    revert h2
    simp only [COLUMN_COUNT]
    omega
  · obtain rfl : i = 3 := by
      revert h1
      simp only [ROW_COUNT]
      omega
    obtain rfl : r0 = 0 := by
      revert h1
      simp only [ROW_COUNT]
      omega
    obtain rfl : c0 = 3 := by omega
    exact absurd (hall 0 (by omega)) (by decide)

/-- C1 (amended): for a non-empty piece at `(r, c)`, `check_win` returns true
iff there is a horizontal 4-window of the piece's value inside row `r`, or a
vertical 4-window inside column `c`, or a diagonal 4-window of either
direction anywhere on the board — the diagonal windows need not pass through
`(r, c)`, and neither the horizontal nor vertical window needs to contain the
cell itself. -/
theorem check_win_detects_windows (b : Board) (r c : ℕ)
    (_hr : r < ROW_COUNT) (_hc : c < COLUMN_COUNT) (_hp : b r c ≠ EMPTY) :
    check_win b r c = true ↔
      row_window b r (b r c) ∨ col_window b c (b r c) ∨ diag_window b (b r c) :=
  check_win_iff b r c

/-- Witness for C1 (amended) at the concrete board `cexWin` and cell `(0, 0)`,
whose horizontal window through columns 0–3 makes both sides true. -/
theorem check_win_detects_windows_witness :
    ((0 : ℕ) < ROW_COUNT ∧ (0 : ℕ) < COLUMN_COUNT ∧ cexWin 0 0 ≠ EMPTY) ∧
      (check_win cexWin 0 0 = true ↔
        row_window cexWin 0 (cexWin 0 0) ∨ col_window cexWin 0 (cexWin 0 0) ∨
          diag_window cexWin (cexWin 0 0)) :=
  ⟨⟨by decide, by decide, by decide⟩,
    check_win_detects_windows cexWin 0 0 (by decide) (by decide) (by decide)⟩

/-! ### Claim C2: what `is_terminal` reports -/

/-- Specification predicate: the given side has a 4-in-a-row window somewhere
on the board (any of the four orientations). -/
def has_window (b : Board) (p : ℤ) : Prop :=
  (∃ r < ROW_COUNT, row_window b r p) ∨ (∃ c < COLUMN_COUNT, col_window b c p) ∨
    diag_window b p

lemma check_any_win_iff (b : Board) (p : ℤ) :
    check_any_win b p = true ↔ has_window b p := by
  simp only [check_any_win, List.any_eq_true, List.mem_range, Bool.and_eq_true, beq_iff_eq]
  constructor
  · rintro ⟨r, hr, c, hc, hp, hw⟩
    rcases (check_win_iff b r c).mp hw with h | h | h
    · exact Or.inl ⟨r, hr, hp ▸ h⟩
    · exact Or.inr (Or.inl ⟨c, hc, hp ▸ h⟩)
    · exact Or.inr (Or.inr (hp ▸ h))
  · rintro (⟨r, hr, c0, hc0, hall⟩ | ⟨c, hc, r0, hr0, hall⟩ | ⟨r0, c0, hr0, hc0, hall | hall⟩)
    · have h0 : b r c0 = p := by simpa using hall 0 (by omega)
      refine ⟨r, hr, c0, by omega, h0, ?_⟩
      rw [check_win_iff, h0]
      exact Or.inl ⟨c0, hc0, hall⟩
    · have h0 : b r0 c = p := by simpa using hall 0 (by omega)
      refine ⟨r0, by omega, c, hc, h0, ?_⟩
      rw [check_win_iff, h0]
      exact Or.inr (Or.inl ⟨r0, hr0, hall⟩)
    · have h0 : b r0 c0 = p := by simpa using hall 0 (by omega)
      refine ⟨r0, by omega, c0, by omega, h0, ?_⟩
      rw [check_win_iff, h0]
      exact Or.inr (Or.inr ⟨r0, c0, hr0, hc0, Or.inl hall⟩)
    · have h0 : b (r0 + 3) c0 = p := by simpa using hall 0 (by omega)
      refine ⟨r0 + 3, by omega, c0, by omega, h0, ?_⟩
      rw [check_win_iff, h0]
      exact Or.inr (Or.inr ⟨r0, c0, hr0, hc0, Or.inr hall⟩)

lemma board_full_iff (b : Board) :
    board_full b = true ↔ ∀ r < ROW_COUNT, ∀ c < COLUMN_COUNT, b r c ≠ EMPTY := by
  simp [board_full, List.all_eq_true, List.mem_range]

/-- Board refuting claim C2 as stated: both sides hold a horizontal 4-window
(rows 0 and 1, columns 0–3). -/
def cexBoth : Board := fun r c => if r = 0 ∧ c ≤ 3 then 1 else if r = 1 ∧ c ≤ 3 then 2 else 0

/-- Counterexample to C2 as stated: on a board where both sides have a
4-window, `is_terminal` reports a win only for the PLAYER, so "reports a win
for a side iff that side has a window" fails for the COMPUTER. -/
theorem is_terminal_not_per_side_iff :
    has_window cexBoth COMPUTER ∧ is_terminal cexBoth ≠ (true, some COMPUTER) := by
  constructor
  · exact Or.inl ⟨1, by decide, 0, by decide, by decide⟩
  · decide

/-- C2 (amended): `is_terminal` reports a PLAYER win iff the PLAYER has a
4-window; it reports a COMPUTER win iff the COMPUTER has a 4-window and the
PLAYER does not (the PLAYER is checked first); it reports a draw iff the board
is full and neither side has a 4-window; and it reports the game as still in
progress otherwise. -/
theorem is_terminal_characterization (b : Board) :
    (is_terminal b = (true, some PLAYER) ↔ has_window b PLAYER) ∧
    (is_terminal b = (true, some COMPUTER) ↔
      has_window b COMPUTER ∧ ¬ has_window b PLAYER) ∧
    (is_terminal b = (true, none) ↔
      (∀ r < ROW_COUNT, ∀ c < COLUMN_COUNT, b r c ≠ EMPTY) ∧
        ¬ has_window b PLAYER ∧ ¬ has_window b COMPUTER) ∧
    (is_terminal b = (false, none) ↔
      ¬ (∀ r < ROW_COUNT, ∀ c < COLUMN_COUNT, b r c ≠ EMPTY) ∧
        ¬ has_window b PLAYER ∧ ¬ has_window b COMPUTER) := by
  unfold is_terminal
  by_cases h1 : check_any_win b PLAYER
  · rw [if_pos h1]
    rw [check_any_win_iff] at h1
    refine ⟨⟨fun _ => h1, fun _ => rfl⟩, ?_, ?_, ?_⟩
    · constructor
      · intro h; exact absurd h (by decide)
      · rintro ⟨-, hno⟩; exact absurd h1 hno
    · constructor
      · intro h; exact absurd h (by decide)
      · rintro ⟨-, hno, -⟩; exact absurd h1 hno
    · constructor
      · intro h; exact absurd h (by decide)
      · rintro ⟨-, hno, -⟩; exact absurd h1 hno
  · rw [if_neg h1]
    rw [check_any_win_iff] at h1
    by_cases h2 : check_any_win b COMPUTER
    · rw [if_pos h2]
      rw [check_any_win_iff] at h2
      refine ⟨?_, ⟨fun _ => ⟨h2, h1⟩, fun _ => rfl⟩, ?_, ?_⟩
      · constructor
        · intro h; exact absurd h (by decide)
        · intro h; exact absurd h h1
      · constructor
        · intro h; exact absurd h (by decide)
        · rintro ⟨-, -, hno⟩; exact absurd h2 hno
      · constructor
        · intro h; exact absurd h (by decide)
        · rintro ⟨-, -, hno⟩; exact absurd h2 hno
    · rw [if_neg h2]
      rw [check_any_win_iff] at h2
      by_cases h3 : board_full b
      · rw [if_pos h3]
        rw [board_full_iff] at h3
        refine ⟨?_, ?_, ⟨fun _ => ⟨h3, h1, h2⟩, fun _ => rfl⟩, ?_⟩
        · constructor
          · intro h; exact absurd h (by decide)
          · intro h; exact absurd h h1
        · constructor
          · intro h; exact absurd h (by decide)
          · rintro ⟨h, -⟩; exact absurd h h2
        · constructor
          · intro h; exact absurd h (by decide)
          · rintro ⟨hnotfull, -⟩; exact absurd h3 hnotfull
      · rw [if_neg h3]
        rw [board_full_iff] at h3
        refine ⟨?_, ?_, ?_, ⟨fun _ => ⟨h3, h1, h2⟩, fun _ => rfl⟩⟩
        · constructor
          · intro h; exact absurd h (by decide)
          · intro h; exact absurd h h1
        · constructor
          · intro h; exact absurd h (by decide)
          · rintro ⟨h, -⟩; exact absurd h h2
        · constructor
          · intro h; exact absurd h (by decide)
          · rintro ⟨hfull, -⟩; exact absurd hfull h3

/-! ### Claim C6: the heuristic evaluator -/

/-- Specification window score of claim C6, as a single table over the counts
of own pieces, opponent pieces, and empties in a 4-cell window. -/
def window_score_spec (w : List ℤ) (pv opp : ℤ) : ℤ :=
  if w.count pv = 4 then 100000
  else if w.count pv = 3 ∧ w.count EMPTY = 1 then 100
  else if w.count pv = 2 ∧ w.count EMPTY = 2 then 10
  else if w.count opp = 3 ∧ w.count EMPTY = 1 then -120
  else if w.count opp = 2 ∧ w.count EMPTY = 2 then -15
  else 0

lemma count_three_distinct_le (l : List ℤ) (a b c : ℤ)
    (hab : a ≠ b) (hac : a ≠ c) (hbc : b ≠ c) :
    l.count a + l.count b + l.count c ≤ l.length := by
  induction l with
  | nil => simp
  | cons x xs ih =>
    simp only [List.count_cons, List.length_cons, beq_iff_eq]
    by_cases hxa : x = a <;> by_cases hxb : x = b <;> by_cases hxc : x = c <;>
      simp_all <;> omega

lemma peek_score_eq_spec (w : List ℤ) (pv : ℤ) (hlen : w.length = 4)
    (hpv : pv = PLAYER ∨ pv = COMPUTER) :
    peek_score w pv = window_score_spec w pv (if pv = PLAYER then COMPUTER else PLAYER) := by
  have hopp : (if pv == COMPUTER then PLAYER else COMPUTER) =
      (if pv = PLAYER then COMPUTER else PLAYER) := by
    rcases hpv with rfl | rfl <;> decide
  have hsum : w.count pv + w.count (if pv = PLAYER then COMPUTER else PLAYER) +
      w.count EMPTY ≤ 4 := by
    rw [← hlen]
    apply count_three_distinct_le
    · rcases hpv with rfl | rfl <;> decide
    · rcases hpv with rfl | rfl <;> decide
    · rcases hpv with rfl | rfl <;> decide
  unfold peek_score window_score_spec
  rw [hopp]
  simp only [Bool.and_eq_true, beq_iff_eq]
  set cpv := w.count pv with hcpv
  set copp := w.count (if pv = PLAYER then COMPUTER else PLAYER) with hcopp
  set ce := w.count EMPTY with hce
  split_ifs <;> omega

/-- Specification center-column count of claim C6: the perspective side's
pieces in column 3 (the middle of 7 columns). -/
def center_count (b : Board) (pv : ℤ) : ℕ :=
  ((List.range 6).map fun r => b r 3).count pv

/-- Specification total of claim C6: 10 per center piece plus the window table
summed over every horizontal, vertical and both-diagonal 4-cell window of the
6×7 grid. -/
def heuristic_spec (b : Board) (pv opp : ℤ) : ℤ :=
  10 * (center_count b pv : ℤ)
  + (((List.range 6).map fun r =>
      ((List.range 4).map fun c =>
        window_score_spec ((List.range 4).map fun i => b r (c + i)) pv opp).sum).sum)
  + (((List.range 7).map fun c =>
      ((List.range 3).map fun r =>
        window_score_spec ((List.range 4).map fun i => b (r + i) c) pv opp).sum).sum)
  + (((List.range 3).map fun r =>
      ((List.range 4).map fun c =>
        window_score_spec ((List.range 4).map fun i => b (r + i) (c + i)) pv opp).sum).sum)
  + (((List.range 3).map fun r =>
      ((List.range 4).map fun c =>
        window_score_spec ((List.range 4).map fun i => b (r + 3 - i) (c + i)) pv opp).sum).sum)

lemma sum_map_congr {α : Type} (l : List α) (f g : α → ℤ) (h : ∀ a ∈ l, f a = g a) :
    (l.map f).sum = (l.map g).sum := by
  induction l with
  | nil => rfl
  | cons x xs ih =>
    simp only [List.map_cons, List.sum_cons]
    rw [h x (List.mem_cons_self x xs), ih fun a ha => h a (List.mem_cons_of_mem x ha)]

/-- C6: for each side, `position_score` equals 10 times the side's piece count
in the middle column plus the spec's per-window score table summed over every
horizontal, vertical, and both-diagonal 4-cell window. -/
theorem position_score_is_spec_heuristic (b : Board) (pv : ℤ)
    (hpv : pv = PLAYER ∨ pv = COMPUTER) :
    position_score b pv = heuristic_spec b pv (if pv = PLAYER then COMPUTER else PLAYER) := by
  have hwin : ∀ (f : ℕ → ℤ), ((List.range 4).map f).length = 4 := by
    intro f; simp
  unfold position_score heuristic_spec center_count
  have h73 : COLUMN_COUNT - 3 = 4 := by decide
  have h63 : ROW_COUNT - 3 = 3 := by decide
  have h72 : COLUMN_COUNT / 2 = 3 := by decide
  rw [h73, h63, h72]
  simp only [ROW_COUNT, COLUMN_COUNT]
  have hsum2 : ∀ (n m : ℕ) (g h : ℕ → ℕ → ℤ), (∀ r c, g r c = h r c) →
      ((List.range n).map fun r => ((List.range m).map fun c => g r c).sum).sum
        = ((List.range n).map fun r => ((List.range m).map fun c => h r c).sum).sum := by
    intro n m g h H
    exact sum_map_congr _ _ _ fun r _ => sum_map_congr _ _ _ fun c _ => H r c
  refine congrArg₂ (· + ·)
    (congrArg₂ (· + ·) (congrArg₂ (· + ·) (congrArg₂ (· + ·) rfl ?_) ?_) ?_) ?_ <;>
    (apply hsum2; intro r c; exact peek_score_eq_spec _ pv (hwin _) hpv)

/-- Witness for C6 on the concrete two-window board `cexBoth`, perspective
COMPUTER. -/
theorem position_score_is_spec_heuristic_witness :
    ((COMPUTER = PLAYER ∨ COMPUTER = COMPUTER) ∧
      position_score cexBoth COMPUTER =
        heuristic_spec cexBoth COMPUTER
          (if COMPUTER = PLAYER then COMPUTER else PLAYER)) ∧
      position_score cexBoth COMPUTER = 99985 :=
  ⟨⟨Or.inr rfl, position_score_is_spec_heuristic cexBoth COMPUTER (Or.inr rfl)⟩, by decide⟩

/-! ### Search support lemmas -/

lemma ordered_columns_eq : ordered_columns = [3, 2, 4, 1, 5, 0, 6] := by decide

lemma mem_valid_locations {b : Board} {c : ℕ} :
    c ∈ valid_locations b ↔ c < COLUMN_COUNT ∧ (check_available_row b (c : ℤ)).isSome := by
  simp [valid_locations, List.mem_filter, List.mem_range]

lemma mem_search_order {b : Board} {c : ℕ} :
    c ∈ search_order b ↔ c ∈ valid_locations b := by
  unfold search_order
  rw [List.mem_filter]
  constructor
  · rintro ⟨-, h⟩
    simpa [List.contains, List.elem_iff] using h
  · intro h
    have hc : c < COLUMN_COUNT := (mem_valid_locations.mp h).1
    refine ⟨?_, by simpa [List.contains, List.elem_iff] using h⟩
    rw [ordered_columns_eq]
    revert hc
    unfold COLUMN_COUNT
    intro hc
    interval_cases c <;> simp

lemma is_terminal_false_parts {b : Board} (h : (is_terminal b).1 = false) :
    check_any_win b PLAYER = false ∧ check_any_win b COMPUTER = false ∧
      board_full b = false := by
  unfold is_terminal at h
  by_cases h1 : check_any_win b PLAYER
  · rw [if_pos h1] at h; exact absurd h (by simp)
  · rw [if_neg h1] at h
    by_cases h2 : check_any_win b COMPUTER
    · rw [if_pos h2] at h; exact absurd h (by simp)
    · rw [if_neg h2] at h
      by_cases h3 : board_full b
      · rw [if_pos h3] at h; exact absurd h (by simp)
      · exact ⟨by simpa using h1, by simpa using h2, by simpa using h3⟩

lemma valid_locations_ne_nil_of_not_terminal {b : Board}
    (h : (is_terminal b).1 = false) : valid_locations b ≠ [] := by
  obtain ⟨-, -, hfull⟩ := is_terminal_false_parts h
  have : ∃ r < ROW_COUNT, ∃ c < COLUMN_COUNT, b r c = EMPTY := by
    by_contra hno
    push_neg at hno
    rw [← Bool.not_eq_true, board_full_iff] at hfull
    exact hfull fun r hr c hc => hno r hr c hc
  obtain ⟨r, hr, c, hc, hrc⟩ := this
  have hmem : c ∈ valid_locations b := by
    rw [mem_valid_locations]
    refine ⟨hc, ?_⟩
    unfold check_available_row
    rw [if_neg (by omega)]
    rw [List.find?_isSome]
    exact ⟨r, List.mem_range.mpr hr, by simp [hrc, Int.toNat_ofNat]⟩
  intro hnil
  rw [hnil] at hmem
  exact absurd hmem (List.not_mem_nil c)

lemma winning_moves_eq_filter (b : Board) (p : ℤ) :
    winning_moves b p = (valid_locations b).filter fun c => wins_now b c p := rfl

lemma winShortcut_cons (b : Board) (p : ℤ) (c : ℕ) (rest : List ℕ) :
    winShortcut b p (c :: rest) =
      if wins_now b c p then some c else winShortcut b p rest := by
  cases h : simulate_drop b c p with
  | none => simp [winShortcut, wins_now, h]
  | some pr =>
    cases pr with
    | mk tmp r => simp [winShortcut, wins_now, h]

lemma winShortcut_some {b : Board} {p : ℤ} {l : List ℕ} {c : ℕ}
    (h : winShortcut b p l = some c) : c ∈ l ∧ wins_now b c p = true := by
  induction l with
  | nil => simp [winShortcut] at h
  | cons x rest ih =>
    rw [winShortcut_cons] at h
    by_cases hx : wins_now b x p
    · rw [if_pos hx] at h
      obtain rfl : x = c := by simpa using h
      exact ⟨List.mem_cons_self x rest, hx⟩
    · rw [if_neg hx] at h
      obtain ⟨h1, h2⟩ := ih h
      exact ⟨List.mem_cons_of_mem x h1, h2⟩

lemma winShortcut_isSome {b : Board} {p : ℤ} {l : List ℕ} {c : ℕ}
    (hc : c ∈ l) (hw : wins_now b c p = true) : ∃ c0, winShortcut b p l = some c0 := by
  induction l with
  | nil => exact absurd hc (List.not_mem_nil c)
  | cons x rest ih =>
    rw [winShortcut_cons]
    by_cases hx : wins_now b x p
    · exact ⟨x, if_pos hx⟩
    · rw [if_neg hx]
      rcases List.mem_cons.mp hc with rfl | hc2


      · exact absurd hw hx
      · exact ih hc2

lemma maxLoop_best_mem {f : ℕ → Score → Score → Score} :
    ∀ {l : List ℕ} {v : Score} {best : Option ℕ} {α β : Score} {c : ℕ},
      (maxLoop f l v best α β).2 = some c → c ∈ l ∨ best = some c := by
  intro l
  induction l with
  | nil => intro v best α β c h; exact Or.inr (by simpa [maxLoop] using h)
  | cons x rest ih =>
    intro v best α β c h
    rw [maxLoop] at h
    by_cases hlt : v < f x α β
    · simp only [if_pos hlt] at h
      split at h
      · obtain rfl : x = c := by simpa using h
        exact Or.inl (List.mem_cons_self x rest)
      · rcases ih h with h2 | h2
        · exact Or.inl (List.mem_cons_of_mem x h2)
        · obtain rfl : x = c := by simpa using h2
          exact Or.inl (List.mem_cons_self x rest)
    · simp only [if_neg hlt] at h
      split at h
      · exact Or.inr h
      · rcases ih h with h2 | h2
        · exact Or.inl (List.mem_cons_of_mem x h2)
        · exact Or.inr h2

lemma minLoop_best_mem {f : ℕ → Score → Score → Score} :
    ∀ {l : List ℕ} {v : Score} {best : Option ℕ} {α β : Score} {c : ℕ},
      (minLoop f l v best α β).2 = some c → c ∈ l ∨ best = some c := by
  intro l
  induction l with
  | nil => intro v best α β c h; exact Or.inr (by simpa [minLoop] using h)
  | cons x rest ih =>
    intro v best α β c h
    rw [minLoop] at h
    by_cases hlt : f x α β < v
    · simp only [if_pos hlt] at h
      split at h
      · obtain rfl : x = c := by simpa using h
        exact Or.inl (List.mem_cons_self x rest)
      · rcases ih h with h2 | h2
        · exact Or.inl (List.mem_cons_of_mem x h2)
        · obtain rfl : x = c := by simpa using h2
          exact Or.inl (List.mem_cons_self x rest)
    · simp only [if_neg hlt] at h
      split at h
      · exact Or.inr h
      · rcases ih h with h2 | h2
        · exact Or.inl (List.mem_cons_of_mem x h2)
        · exact Or.inr h2

lemma minimax_succ_col_valid {pick : List ℕ → ℕ} (hp : pickOK pick) {b : Board} {d : ℕ}
    {α β : Score} {maxi : Bool} (hterm : (is_terminal b).1 = false) :
    ∃ c, (minimax pick (d + 1) b α β maxi).2 = some c ∧ c ∈ valid_locations b := by
  rw [minimax, if_neg (by simp [hterm])]
  cases maxi
  case true =>
    rw [if_pos rfl]
    cases hws : winShortcut b COMPUTER (search_order b) with
    | some c => exact ⟨c, rfl, mem_search_order.mp (winShortcut_some hws).1⟩
    | none =>
      cases hloop : maxLoop (fun c a bt => (minimax pick d (dropB b c COMPUTER) a bt false).1)
          (search_order b) ⊥ none α β with
      | mk v bc =>
        cases bc with
        | some c =>
          refine ⟨c, rfl, ?_⟩
          rcases maxLoop_best_mem (by rw [hloop]) with h | h
          · exact mem_search_order.mp h
          · exact absurd h (by simp)
        | none =>
          exact ⟨pick (valid_locations b), rfl,
            hp _ (valid_locations_ne_nil_of_not_terminal hterm)⟩
  case false =>
    rw [if_neg (by simp)]
    cases hws : winShortcut b PLAYER (search_order b) with
    | some c => exact ⟨c, rfl, mem_search_order.mp (winShortcut_some hws).1⟩
    | none =>
      cases hloop : minLoop (fun c a bt => (minimax pick d (dropB b c PLAYER) a bt true).1)
          (search_order b) ⊤ none α β with
      | mk v bc =>
        cases bc with
        | some c =>
          refine ⟨c, rfl, ?_⟩
          rcases minLoop_best_mem (by rw [hloop]) with h | h
          · exact mem_search_order.mp h
          · exact absurd h (by simp)
        | none =>
          exact ⟨pick (valid_locations b), rfl,
            hp _ (valid_locations_ne_nil_of_not_terminal hterm)⟩

/-! ### Claim C8: search always returns a legal column -/

/-- C8: on a non-terminal board (which always has a legal column) and at any
depth ≥ 1, `minimax` returns a column that is a member of `valid_locations`,
for every window and side to move; consequently `ai_best_move` also returns a
member of `valid_locations`. -/
theorem search_returns_legal_column (pick : List ℕ → ℕ) (b : Board) (d : ℕ)
    (α β : Score) (maxi : Bool) (hp : pickOK pick)
    (hterm : (is_terminal b).1 = false) (hd : 1 ≤ d) :
    (∃ c, (minimax pick d b α β maxi).2 = some c ∧ c ∈ valid_locations b) ∧
      ai_best_move pick b ∈ valid_locations b := by
  obtain ⟨d1, rfl⟩ : ∃ d1, d = d1 + 1 := ⟨d - 1, by omega⟩
  refine ⟨minimax_succ_col_valid hp hterm, ?_⟩
  unfold ai_best_move
  cases hw : winning_moves b COMPUTER with
  | cons c rest =>
    have hmem : c ∈ winning_moves b COMPUTER := by
      rw [hw]; exact List.mem_cons_self c rest
    rw [winning_moves_eq_filter] at hmem
    exact (List.mem_filter.mp hmem).1
  | nil =>
    cases hw2 : winning_moves b PLAYER with
    | cons c rest =>
      have hmem : c ∈ winning_moves b PLAYER := by
        rw [hw2]; exact List.mem_cons_self c rest
      rw [winning_moves_eq_filter] at hmem
      exact (List.mem_filter.mp hmem).1
    | nil =>
      have h5 : AI_DEPTH = 4 + 1 := rfl
      rw [h5]
      obtain ⟨c, hc, hcv⟩ := @minimax_succ_col_valid pick hp b 4 ⊥ ⊤ true hterm
      rw [hc]
      exact hcv

/-- Witness for C8 on the empty board at depth 1 with the head-taking choice
function. -/
theorem search_returns_legal_column_witness :
    (pickOK (fun l => l.headD 0) ∧ (is_terminal create_board).1 = false ∧ 1 ≤ 1) ∧
      (∃ c, (minimax (fun l => l.headD 0) 1 create_board ⊥ ⊤ true).2 = some c ∧
        c ∈ valid_locations create_board) ∧
      ai_best_move (fun l => l.headD 0) create_board ∈ valid_locations create_board := by
  have hp : pickOK (fun l => l.headD 0) := by
    intro l hl
    cases l with
    | nil => exact absurd rfl hl
    | cons x xs => exact List.mem_cons_self x xs
  exact ⟨⟨hp, by decide, le_refl 1⟩,
    search_returns_legal_column (fun l => l.headD 0) create_board 1 ⊥ ⊤ true hp
      (by decide) (le_refl 1)⟩

/-! ### Claim C4: the immediate-win shortcut fires at every ply -/

/-- C4: at every ply of `minimax` (any depth ≥ 1, any window), on a
non-terminal board, if some ordered legal move of the side to move wins
immediately when simulated, `minimax` returns `+∞` (maximizing: a COMPUTER
win) or `-∞` (minimizing: a PLAYER win) together with such a column, without
recursing. -/
theorem minimax_immediate_win_shortcut (pick : List ℕ → ℕ) (b : Board) (d : ℕ)
    (α β : Score) (hterm : (is_terminal b).1 = false) :
    ((∃ c ∈ search_order b, wins_now b c COMPUTER = true) →
      ∃ c0, minimax pick (d + 1) b α β true = ((⊤ : Score), some c0) ∧
        c0 ∈ search_order b ∧ wins_now b c0 COMPUTER = true) ∧
    ((∃ c ∈ search_order b, wins_now b c PLAYER = true) →
      ∃ c0, minimax pick (d + 1) b α β false = ((⊥ : Score), some c0) ∧
        c0 ∈ search_order b ∧ wins_now b c0 PLAYER = true) := by
  constructor
  · rintro ⟨c, hc, hw⟩
    obtain ⟨c0, hc0⟩ := winShortcut_isSome hc hw
    obtain ⟨hmem, hwin⟩ := winShortcut_some hc0
    refine ⟨c0, ?_, hmem, hwin⟩
    rw [minimax, if_neg (by simp [hterm]), if_pos rfl, hc0]
  · rintro ⟨c, hc, hw⟩
    obtain ⟨c0, hc0⟩ := winShortcut_isSome hc hw
    obtain ⟨hmem, hwin⟩ := winShortcut_some hc0
    refine ⟨c0, ?_, hmem, hwin⟩
    rw [minimax, if_neg (by simp [hterm]), if_neg (by simp), hc0]

/-- Board with three COMPUTER pieces on the bottom row, columns 0–2: dropping
into column 3 wins immediately. -/
def cexShortcut : Board := fun r c => if r = 0 ∧ c ≤ 2 then 2 else 0

/-- Witness for C4 on `cexShortcut` at depth 1, maximizing side. -/
theorem minimax_immediate_win_shortcut_witness :
    ((is_terminal cexShortcut).1 = false ∧
        (∃ c ∈ search_order cexShortcut, wins_now cexShortcut c COMPUTER = true)) ∧
      ∃ c0, minimax (fun l => l.headD 0) 1 cexShortcut ⊥ ⊤ true = ((⊤ : Score), some c0) ∧
        c0 ∈ search_order cexShortcut ∧ wins_now cexShortcut c0 COMPUTER = true := by
  have hterm : (is_terminal cexShortcut).1 = false := by decide
  have hex : ∃ c ∈ search_order cexShortcut, wins_now cexShortcut c COMPUTER = true :=
    ⟨3, by decide, by decide⟩
  exact ⟨⟨hterm, hex⟩,
    (minimax_immediate_win_shortcut (fun l => l.headD 0) cexShortcut 0 ⊥ ⊤ hterm).1 hex⟩

/-! ### Claim C3: the three-tier top-level policy of `ai_best_move` -/

lemma winning_moves_nil_iff (b : Board) (p : ℤ) :
    winning_moves b p = [] ↔ ¬ ∃ c ∈ valid_locations b, wins_now b c p = true := by
  rw [winning_moves_eq_filter, List.filter_eq_nil_iff]
  simp

/-- C3: on a non-terminal board it is the AI's turn on, `ai_best_move` (a)
returns an immediately winning column when the COMPUTER has one, (b) otherwise
returns an immediately winning column of the PLAYER (a blocking column) when
the PLAYER has one, and (c) otherwise returns exactly the column chosen by the
depth-`AI_DEPTH` alpha-beta search. -/
theorem ai_best_move_three_tier (pick : List ℕ → ℕ) (b : Board) (hp : pickOK pick)
    (hterm : (is_terminal b).1 = false) :
    ((∃ c ∈ valid_locations b, wins_now b c COMPUTER = true) →
      wins_now b (ai_best_move pick b) COMPUTER = true) ∧
    ((¬ ∃ c ∈ valid_locations b, wins_now b c COMPUTER = true) →
      (∃ c ∈ valid_locations b, wins_now b c PLAYER = true) →
        wins_now b (ai_best_move pick b) PLAYER = true) ∧
    ((¬ ∃ c ∈ valid_locations b, wins_now b c COMPUTER = true) →
      (¬ ∃ c ∈ valid_locations b, wins_now b c PLAYER = true) →
        (minimax pick AI_DEPTH b ⊥ ⊤ true).2 = some (ai_best_move pick b)) := by
  refine ⟨?_, ?_, ?_⟩
  · intro hex
    unfold ai_best_move
    cases hw : winning_moves b COMPUTER with
    | nil => exact absurd hex ((winning_moves_nil_iff b COMPUTER).mp hw)
    | cons c rest =>
      have hmem : c ∈ winning_moves b COMPUTER := by
        rw [hw]; exact List.mem_cons_self c rest
      rw [winning_moves_eq_filter] at hmem
      exact (List.mem_filter.mp hmem).2
  · intro hnoc hex
    unfold ai_best_move
    rw [(winning_moves_nil_iff b COMPUTER).mpr hnoc]
    cases hw : winning_moves b PLAYER with
    | nil => exact absurd hex ((winning_moves_nil_iff b PLAYER).mp hw)
    | cons c rest =>
      have hmem : c ∈ winning_moves b PLAYER := by
        rw [hw]; exact List.mem_cons_self c rest
      rw [winning_moves_eq_filter] at hmem
      exact (List.mem_filter.mp hmem).2
  · intro hnoc hnop
    unfold ai_best_move
    rw [(winning_moves_nil_iff b COMPUTER).mpr hnoc,
      (winning_moves_nil_iff b PLAYER).mpr hnop]
    have h5 : AI_DEPTH = 4 + 1 := rfl
    rw [h5]
    obtain ⟨c, hc, -⟩ := @minimax_succ_col_valid pick hp b 4 ⊥ ⊤ true hterm
    rw [hc]

/-- Witness for C3 on `cexShortcut`: the COMPUTER has the immediate win in
column 3, and `ai_best_move` returns an immediately winning column. -/
theorem ai_best_move_three_tier_witness :
    (pickOK (fun l => l.headD 0) ∧ (is_terminal cexShortcut).1 = false ∧
        (∃ c ∈ valid_locations cexShortcut, wins_now cexShortcut c COMPUTER = true)) ∧
      wins_now cexShortcut (ai_best_move (fun l => l.headD 0) cexShortcut) COMPUTER = true := by
  have hp : pickOK (fun l => l.headD 0) := by
    intro l hl
    cases l with
    | nil => exact absurd rfl hl
    | cons x xs => exact List.mem_cons_self x xs
  have hex : ∃ c ∈ valid_locations cexShortcut, wins_now cexShortcut c COMPUTER = true :=
    ⟨3, by decide, by decide⟩
  exact ⟨⟨hp, by decide, hex⟩,
    (ai_best_move_three_tier (fun l => l.headD 0) cexShortcut hp (by decide)).1 hex⟩

/-! ### Claim C5: fail-soft alpha-beta against plain minimax

The key invariant `FS t v α β` relates the score `v` returned by a windowed
search to the plain-minimax score `t` of the same node: inside the window they
agree; a fail-low result upper-bounds the true score; a fail-high result
lower-bounds it. -/

def FS (t v α β : Score) : Prop :=
  (v ≤ α → t ≤ v) ∧ (β ≤ v → v ≤ t) ∧ (α < v → v < β → v = t)

lemma FS_refl (t α β : Score) : FS t t α β :=
  ⟨fun _ => le_refl t, fun _ => le_refl t, fun _ _ => rfl⟩

/-- The value computed by the plain maximizing fold. -/
def valMax (g : ℕ → Score) (l : List ℕ) (v : Score) : Score :=
  l.foldl (fun acc c => max acc (g c)) v

/-- The value computed by the plain minimizing fold. -/
def valMin (g : ℕ → Score) (l : List ℕ) (v : Score) : Score :=
  l.foldl (fun acc c => min acc (g c)) v

lemma valMax_cons (g : ℕ → Score) (c : ℕ) (l : List ℕ) (v : Score) :
    valMax g (c :: l) v = valMax g l (max v (g c)) := rfl

lemma valMin_cons (g : ℕ → Score) (c : ℕ) (l : List ℕ) (v : Score) :
    valMin g (c :: l) v = valMin g l (min v (g c)) := rfl

lemma le_valMax (g : ℕ → Score) (l : List ℕ) : ∀ v, v ≤ valMax g l v := by
  induction l with
  | nil => intro v; exact le_refl v
  | cons c rest ih =>
    intro v
    exact le_trans (le_max_left v (g c)) (ih (max v (g c)))

lemma valMin_le (g : ℕ → Score) (l : List ℕ) : ∀ v, valMin g l v ≤ v := by
  induction l with
  | nil => intro v; exact le_refl v
  | cons c rest ih =>
    intro v
    exact le_trans (ih (min v (g c))) (min_le_left v (g c))

lemma valMax_max (g : ℕ → Score) (l : List ℕ) :
    ∀ v m, valMax g l (max v m) = max (valMax g l v) m := by
  induction l with
  | nil => intro v m; rfl
  | cons c rest ih =>
    intro v m
    rw [valMax_cons, valMax_cons, sup_right_comm v m (g c), ih (max v (g c)) m]

lemma valMin_min (g : ℕ → Score) (l : List ℕ) :
    ∀ v m, valMin g l (min v m) = min (valMin g l v) m := by
  induction l with
  | nil => intro v m; rfl
  | cons c rest ih =>
    intro v m
    rw [valMin_cons, valMin_cons, min_right_comm v m (g c), ih (min v (g c)) m]

lemma ite_lt_max (v ns : Score) : (if v < ns then ns else v) = max v ns := by
  rcases le_or_lt ns v with h | h
  · rw [if_neg (not_lt.mpr h), max_eq_left h]
  · rw [if_pos h, max_eq_right (le_of_lt h)]

lemma ite_lt_min (v ns : Score) : (if ns < v then ns else v) = min v ns := by
  rcases le_or_lt v ns with h | h
  · rw [if_neg (not_lt.mpr h), min_eq_left h]
  · rw [if_pos h, min_eq_right (le_of_lt h)]

lemma max_absorb (a v w : Score) (h : v ≤ w) : max (max a v) w = max a w := by
  rw [max_assoc, max_eq_right h]

lemma min_absorb (a v w : Score) (h : w ≤ v) : min (min a v) w = min a w := by
  rw [min_assoc, min_eq_right h]

lemma maxLoop_cons (f : ℕ → Score → Score → Score) (c : ℕ) (rest : List ℕ)
    (v : Score) (best : Option ℕ) (α β : Score) :
    maxLoop f (c :: rest) v best α β =
      if β ≤ max α (max v (f c α β)) then
        (max v (f c α β), if v < f c α β then some c else best)
      else
        maxLoop f rest (max v (f c α β)) (if v < f c α β then some c else best)
          (max α (max v (f c α β))) β := by
  rw [maxLoop]
  simp only [ite_lt_max]

lemma minLoop_cons (f : ℕ → Score → Score → Score) (c : ℕ) (rest : List ℕ)
    (v : Score) (best : Option ℕ) (α β : Score) :
    minLoop f (c :: rest) v best α β =
      if min β (min v (f c α β)) ≤ α then
        (min v (f c α β), if f c α β < v then some c else best)
      else
        minLoop f rest (min v (f c α β)) (if f c α β < v then some c else best)
          α (min β (min v (f c α β))) := by
  rw [minLoop]
  simp only [ite_lt_min]

lemma maxLoop_fs {g : ℕ → Score} {f : ℕ → Score → Score → Score} {α0 β : Score}
    (hαβ : α0 < β) (H : ∀ c a, a < β → FS (g c) (f c a β) a β) :
    ∀ (l : List ℕ) (v : Score) (best : Option ℕ), max α0 v < β →
      FS (valMax g l v) ((maxLoop f l v best (max α0 v) β).1) α0 β := by
  intro l
  induction l with
  | nil =>
    intro v best _
    exact FS_refl v α0 β
  | cons c rest ih =>
    intro v best ha
    rw [valMax_cons, maxLoop_cons]
    set a := max α0 v with hadef
    obtain ⟨h1, h2, h3⟩ := H c a ha
    set ns := f c a β with hnsdef
    set v1 := max v ns with hv1def
    have habs : max a v1 = max α0 v1 := by
      rw [hadef, hv1def]
      exact max_absorb α0 v (max v ns) (le_max_left v ns)
    rw [habs]
    have hva : v ≤ a := by rw [hadef]; exact le_max_right α0 v
    by_cases hbr : β ≤ max α0 v1
    · rw [if_pos hbr]
      have hβv1 : β ≤ v1 := by
        by_contra hlt
        push_neg at hlt
        exact absurd hbr (not_le.mpr (max_lt hαβ hlt))
      have hvβ : v < β := lt_of_le_of_lt hva ha
      have hns : v1 = ns := by
        rcases max_cases v ns with ⟨he, -⟩ | ⟨he, -⟩
        · exfalso
          rw [hv1def, he] at hβv1
          exact absurd (lt_of_le_of_lt hβv1 hvβ) (lt_irrefl β)
        · rw [hv1def, he]
      have hβns : β ≤ ns := hns ▸ hβv1
      have hnsg : ns ≤ g c := h2 hβns
      refine ⟨?_, ?_, ?_⟩
      · intro hle
        exfalso
        exact absurd (lt_of_le_of_lt (le_trans hβv1 hle) hαβ) (lt_irrefl β)
      · intro _
        rw [hns]
        exact le_trans hnsg (le_trans (le_max_right v (g c)) (le_valMax g rest (max v (g c))))
      · intro h4 h5
        exfalso
        exact absurd (lt_of_le_of_lt hβv1 h5) (lt_irrefl β)
    · rw [if_neg hbr]
      push_neg at hbr
      have hv1ns : ns ≤ v1 := by rw [hv1def]; exact le_max_right v ns
      have hnsβ : ns < β := lt_of_le_of_lt (le_trans hv1ns (le_max_right α0 v1)) hbr
      by_cases hcase : ns ≤ a
      · have hg : g c ≤ ns := h1 hcase
        have hT : valMax g rest (max v (g c)) = max (valMax g rest v) (g c) :=
          valMax_max g rest v (g c)
        have hT' : valMax g rest v1 = max (valMax g rest v) ns := by
          rw [hv1def]
          exact valMax_max g rest v ns
        rw [hT]
        have ihr := ih v1 (if v < ns then some c else best) hbr
        rw [hT'] at ihr
        set S := valMax g rest v with hSdef
        set vr := (maxLoop f rest v1 (if v < ns then some c else best) (max α0 v1) β).1
          with hvrdef
        obtain ⟨i1, i2, i3⟩ := ihr
        refine ⟨?_, ?_, ?_⟩
        · intro hvr
          exact le_trans (max_le_max (le_refl S) hg) (i1 hvr)
        · intro hvr
          have h6 := i2 hvr
          rcases max_cases S ns with ⟨he, -⟩ | ⟨he, -⟩
          · rw [he] at h6
            exact le_trans h6 (le_max_left S (g c))
          · exfalso
            rw [he] at h6
            have h7 : vr ≤ a := le_trans h6 hcase
            exact absurd (lt_of_le_of_lt (le_trans hvr h7) ha) (lt_irrefl β)
        · intro h4 h5
          have h6 := i3 h4 h5
          rcases le_or_lt ns S with hns2 | hns2
          · rw [max_eq_left (le_trans hg hns2), h6, max_eq_left hns2]
          · exfalso
            have hvr_ns : vr = ns := by rw [h6, max_eq_right (le_of_lt hns2)]
            have hα0ns : α0 < ns := hvr_ns ▸ h4
            have h7 : ns ≤ v := by
              rcases max_cases α0 v with ⟨he, -⟩ | ⟨he, -⟩
              · rw [hadef, he] at hcase
                exact absurd (lt_of_lt_of_le hα0ns hcase) (lt_irrefl α0)
              · rw [hadef, he] at hcase
                exact hcase
            exact absurd (lt_of_le_of_lt (le_trans h7 (le_valMax g rest v)) hns2)
              (lt_irrefl ns)
      · push_neg at hcase
        have hg : ns = g c := h3 hcase hnsβ
        rw [← hg, ← hv1def]
        exact ih v1 (if v < ns then some c else best) hbr

lemma minLoop_fs {g : ℕ → Score} {f : ℕ → Score → Score → Score} {α0 β0 : Score}
    (hαβ : α0 < β0) (H : ∀ c bt, α0 < bt → FS (g c) (f c α0 bt) α0 bt) :
    ∀ (l : List ℕ) (v : Score) (best : Option ℕ), α0 < min β0 v →
      FS (valMin g l v) ((minLoop f l v best α0 (min β0 v)).1) α0 β0 := by
  intro l
  induction l with
  | nil =>
    intro v best _
    exact FS_refl v α0 β0
  | cons c rest ih =>
    intro v best ha
    rw [valMin_cons, minLoop_cons]
    set bt := min β0 v with hbtdef
    obtain ⟨h1, h2, h3⟩ := H c bt ha
    set ns := f c α0 bt with hnsdef
    set v1 := min v ns with hv1def
    have habs : min bt v1 = min β0 v1 := by
      rw [hbtdef, hv1def]
      exact min_absorb β0 v (min v ns) (min_le_left v ns)
    rw [habs]
    have hvb : bt ≤ v := by rw [hbtdef]; exact min_le_right β0 v
    by_cases hbr : min β0 v1 ≤ α0
    · rw [if_pos hbr]
      have hv1α : v1 ≤ α0 := by
        by_contra hlt
        push_neg at hlt
        exact absurd hbr (not_le.mpr (lt_min hαβ hlt))
      have hαv : α0 < v := lt_of_lt_of_le ha hvb
      have hns : v1 = ns := by
        rcases min_cases v ns with ⟨he, -⟩ | ⟨he, -⟩
        · exfalso
          rw [hv1def, he] at hv1α
          exact absurd (lt_of_lt_of_le hαv hv1α) (lt_irrefl α0)
        · rw [hv1def, he]
      have hnsα : ns ≤ α0 := hns ▸ hv1α
      have hnsg : g c ≤ ns := h1 hnsα
      refine ⟨?_, ?_, ?_⟩
      · intro _
        rw [hns]
        exact le_trans (le_trans (valMin_le g rest (min v (g c))) (min_le_right v (g c))) hnsg
      · intro hle
        exfalso
        exact absurd (lt_of_le_of_lt (le_trans hle hv1α) hαβ) (lt_irrefl β0)
      · intro h4 h5
        exfalso
        exact absurd (lt_of_lt_of_le h4 hv1α) (lt_irrefl α0)
    · rw [if_neg hbr]
      push_neg at hbr
      have hv1ns : v1 ≤ ns := by rw [hv1def]; exact min_le_right v ns
      have hnsα : α0 < ns := lt_of_lt_of_le hbr (le_trans (min_le_right β0 v1) hv1ns)
      by_cases hcase : bt ≤ ns
      · have hg : ns ≤ g c := h2 hcase
        have hT : valMin g rest (min v (g c)) = min (valMin g rest v) (g c) :=
          valMin_min g rest v (g c)
        have hT' : valMin g rest v1 = min (valMin g rest v) ns := by
          rw [hv1def]
          exact valMin_min g rest v ns
        rw [hT]
        have ihr := ih v1 (if ns < v then some c else best) hbr
        rw [hT'] at ihr
        set S := valMin g rest v with hSdef
        set vr := (minLoop f rest v1 (if ns < v then some c else best) α0 (min β0 v1)).1
          with hvrdef
        obtain ⟨i1, i2, i3⟩ := ihr
        refine ⟨?_, ?_, ?_⟩
        · intro hvr
          have h6 := i1 hvr
          rcases min_cases S ns with ⟨he, -⟩ | ⟨he, -⟩
          · rw [he] at h6
            exact le_trans (min_le_left S (g c)) h6
          · exfalso
            rw [he] at h6
            exact absurd (lt_of_lt_of_le (lt_of_lt_of_le ha hcase) (le_trans h6 hvr))
              (lt_irrefl α0)
        · intro hvr
          have h6 := i2 hvr
          exact le_min (le_trans h6 (min_le_left S ns))
            (le_trans (le_trans h6 (min_le_right S ns)) hg)
        · intro h4 h5
          have h6 := i3 h4 h5
          rcases le_or_lt S ns with hns2 | hns2
          · rw [min_eq_left (le_trans hns2 hg), h6, min_eq_left hns2]
          · exfalso
            have hvr_ns : vr = ns := by rw [h6, min_eq_right (le_of_lt hns2)]
            have hnsβ : ns < β0 := hvr_ns ▸ h5
            have h7 : v ≤ ns := by
              rcases min_cases β0 v with ⟨he, -⟩ | ⟨he, -⟩
              · rw [hbtdef, he] at hcase
                exact absurd (lt_of_le_of_lt hcase hnsβ) (lt_irrefl β0)
              · rw [hbtdef, he] at hcase
                exact hcase
            exact absurd (lt_of_le_of_lt (le_trans (valMin_le g rest v) h7) hns2)
              (lt_irrefl S)
      · push_neg at hcase
        have hg : ns = g c := h3 hnsα hcase
        rw [← hg, ← hv1def]
        exact ih v1 (if ns < v then some c else best) hbr

lemma plainMaxFold_cons (g : ℕ → Score) (c : ℕ) (rest : List ℕ) (v : Score)
    (best : Option ℕ) :
    plainMaxFold g (c :: rest) v best =
      if v < g c then plainMaxFold g rest (g c) (some c)
      else plainMaxFold g rest v best := rfl

lemma plainMinFold_cons (g : ℕ → Score) (c : ℕ) (rest : List ℕ) (v : Score)
    (best : Option ℕ) :
    plainMinFold g (c :: rest) v best =
      if g c < v then plainMinFold g rest (g c) (some c)
      else plainMinFold g rest v best := rfl

lemma plainMaxFold_fst (g : ℕ → Score) :
    ∀ (l : List ℕ) (v : Score) (best : Option ℕ),
      (plainMaxFold g l v best).1 = valMax g l v := by
  intro l
  induction l with
  | nil => intro v best; rfl
  | cons c rest ih =>
    intro v best
    rw [plainMaxFold_cons, valMax_cons]
    by_cases h : v < g c
    · rw [if_pos h, ih, max_eq_right (le_of_lt h)]
    · rw [if_neg h, ih, max_eq_left (not_lt.mp h)]

lemma plainMinFold_fst (g : ℕ → Score) :
    ∀ (l : List ℕ) (v : Score) (best : Option ℕ),
      (plainMinFold g l v best).1 = valMin g l v := by
  intro l
  induction l with
  | nil => intro v best; rfl
  | cons c rest ih =>
    intro v best
    rw [plainMinFold_cons, valMin_cons]
    by_cases h : g c < v
    · rw [if_pos h, ih, min_eq_right (le_of_lt h)]
    · rw [if_neg h, ih, min_eq_left (not_lt.mp h)]

/-- Fail-soft soundness of the windowed search against the plain reference at
every node: inside the window the scores agree, outside they bound each other. -/
theorem minimax_fs (pick : List ℕ → ℕ) :
    ∀ (d : ℕ) (b : Board) (maxi : Bool) (α β : Score), α < β →
      FS ((plain_minimax pick d b maxi).1) ((minimax pick d b α β maxi).1) α β := by
  intro d
  induction d with
  | zero =>
    intro b maxi α β _
    exact FS_refl (leaf_value b) α β
  | succ d ih =>
    intro b maxi α β hαβ
    rw [minimax, plain_minimax]
    by_cases hterm : (is_terminal b).1 = true
    · rw [if_pos hterm, if_pos hterm]
      exact FS_refl (leaf_value b) α β
    · rw [if_neg hterm, if_neg hterm]
      cases maxi with
      | true =>
        rw [if_pos rfl, if_pos rfl]
        cases hws : winShortcut b COMPUTER (search_order b) with
        | some c => exact FS_refl ⊤ α β
        | none =>
          have H : ∀ c a, a < β →
              FS ((plain_minimax pick d (dropB b c COMPUTER) false).1)
                ((minimax pick d (dropB b c COMPUTER) a β false).1) a β :=
            fun c a haβ => ih (dropB b c COMPUTER) false a β haβ
          have hfs := @maxLoop_fs
            (fun c => (plain_minimax pick d (dropB b c COMPUTER) false).1)
            (fun c a bt => (minimax pick d (dropB b c COMPUTER) a bt false).1)
            α β hαβ H (search_order b) ⊥ none (by rw [sup_bot_eq]; exact hαβ)
          rw [sup_bot_eq] at hfs
          rw [← plainMaxFold_fst _ _ _ none] at hfs
          cases hab : maxLoop
              (fun c a bt => (minimax pick d (dropB b c COMPUTER) a bt false).1)
              (search_order b) ⊥ none α β with
          | mk vab bcab =>
            cases hpl : plainMaxFold
                (fun c => (plain_minimax pick d (dropB b c COMPUTER) false).1)
                (search_order b) ⊥ none with
            | mk vp bcp =>
              rw [hab, hpl] at hfs
              cases bcab <;> cases bcp <;> exact hfs
      | false =>
        rw [if_neg (by simp), if_neg (by simp)]
        cases hws : winShortcut b PLAYER (search_order b) with
        | some c => exact FS_refl ⊥ α β
        | none =>
          have H : ∀ c bt, α < bt →
              FS ((plain_minimax pick d (dropB b c PLAYER) true).1)
                ((minimax pick d (dropB b c PLAYER) α bt true).1) α bt :=
            fun c bt hbt => ih (dropB b c PLAYER) true α bt hbt
          have hfs := @minLoop_fs
            (fun c => (plain_minimax pick d (dropB b c PLAYER) true).1)
            (fun c a bt => (minimax pick d (dropB b c PLAYER) a bt true).1)
            α β hαβ H (search_order b) ⊤ none (by rw [inf_top_eq]; exact hαβ)
          rw [inf_top_eq] at hfs
          rw [← plainMinFold_fst _ _ _ none] at hfs
          cases hab : minLoop
              (fun c a bt => (minimax pick d (dropB b c PLAYER) a bt true).1)
              (search_order b) ⊤ none α β with
          | mk vab bcab =>
            cases hpl : plainMinFold
                (fun c => (plain_minimax pick d (dropB b c PLAYER) true).1)
                (search_order b) ⊤ none with
            | mk vp bcp =>
              rw [hab, hpl] at hfs
              cases bcab <;> cases bcp <;> exact hfs

lemma plainMaxFold_top (g : ℕ → Score) :
    ∀ (l : List ℕ) (best : Option ℕ), plainMaxFold g l ⊤ best = (⊤, best) := by
  intro l
  induction l with
  | nil => intro best; rfl
  | cons c rest ih =>
    intro best
    rw [plainMaxFold_cons, if_neg (not_lt.mpr le_top)]
    exact ih best

lemma plainMinFold_bot (g : ℕ → Score) :
    ∀ (l : List ℕ) (best : Option ℕ), plainMinFold g l ⊥ best = (⊥, best) := by
  intro l
  induction l with
  | nil => intro best; rfl
  | cons c rest ih =>
    intro best
    rw [plainMinFold_cons, if_neg (not_lt.mpr bot_le)]
    exact ih best

lemma maxLoop_top_eq {g : ℕ → Score} {f : ℕ → Score → Score → Score}
    (H : ∀ c a, a < ⊤ → FS (g c) (f c a ⊤) a ⊤) :
    ∀ (l : List ℕ) (v : Score) (best : Option ℕ), v < ⊤ →
      maxLoop f l v best v ⊤ = plainMaxFold g l v best := by
  intro l
  induction l with
  | nil => intro v best _; rfl
  | cons c rest ih =>
    intro v best hv
    rw [maxLoop_cons, plainMaxFold_cons]
    have hnorm : max v (max v (f c v ⊤)) = max v (f c v ⊤) := by
      rw [← sup_assoc, sup_idem]
    rw [hnorm]
    obtain ⟨h1, h2, h3⟩ := H c v hv
    set ns := f c v ⊤ with hnsdef
    rcases le_or_lt ns v with hle | hlt
    · have hgle : g c ≤ ns := h1 hle
      rw [max_eq_left hle, if_neg (not_le.mpr hv), if_neg (not_lt.mpr hle),
        if_neg (not_lt.mpr (le_trans hgle hle))]
      exact ih v best hv
    · by_cases hns : ns < ⊤
      · have hg : ns = g c := h3 hlt hns
        rw [← hg, max_eq_right (le_of_lt hlt), if_neg (not_le.mpr hns),
          if_pos hlt, if_pos hlt]
        exact ih ns (some c) hns
      · have hnst : ns = ⊤ := top_le_iff.mp (not_lt.mp hns)
        have hgc : g c = ⊤ := top_le_iff.mp (hnst ▸ h2 (le_of_eq hnst.symm))
        rw [hnst, hgc, max_eq_right le_top, if_pos (le_refl (⊤ : Score)),
          if_pos hv, if_pos hv, plainMaxFold_top]

lemma minLoop_bot_eq {g : ℕ → Score} {f : ℕ → Score → Score → Score}
    (H : ∀ c bt, (⊥ : Score) < bt → FS (g c) (f c ⊥ bt) ⊥ bt) :
    ∀ (l : List ℕ) (v : Score) (best : Option ℕ), (⊥ : Score) < v →
      minLoop f l v best ⊥ v = plainMinFold g l v best := by
  intro l
  induction l with
  | nil => intro v best _; rfl
  | cons c rest ih =>
    intro v best hv
    rw [minLoop_cons, plainMinFold_cons]
    have hnorm : min v (min v (f c ⊥ v)) = min v (f c ⊥ v) := by
      rw [← inf_assoc, inf_idem]
    rw [hnorm]
    obtain ⟨h1, h2, h3⟩ := H c v hv
    set ns := f c ⊥ v with hnsdef
    rcases le_or_lt v ns with hle | hlt
    · have hgle : ns ≤ g c := h2 hle
      rw [min_eq_left hle, if_neg (not_le.mpr hv), if_neg (not_lt.mpr hle),
        if_neg (not_lt.mpr (le_trans hle hgle))]
      exact ih v best hv
    · by_cases hns : (⊥ : Score) < ns
      · have hg : ns = g c := h3 hns hlt
        rw [← hg, min_eq_right (le_of_lt hlt), if_neg (not_le.mpr hns),
          if_pos hlt, if_pos hlt]
        exact ih ns (some c) hns
      · have hnst : ns = ⊥ := le_bot_iff.mp (not_lt.mp hns)
        have hgc : g c = ⊥ := le_bot_iff.mp (hnst ▸ h1 (le_of_eq hnst))
        rw [hnst, hgc, min_eq_right bot_le, if_pos (le_refl (⊥ : Score)),
          if_pos hv, if_pos hv, plainMinFold_bot]

/-- With the full initial window, the pruned search and the plain reference
return identical results: same score and same chosen column. -/
theorem minimax_ab_eq_plain (pick : List ℕ → ℕ) :
    ∀ (d : ℕ) (b : Board) (maxi : Bool),
      minimax pick d b ⊥ ⊤ maxi = plain_minimax pick d b maxi := by
  intro d
  induction d with
  | zero => intro b maxi; rfl
  | succ d ih =>
    intro b maxi
    rw [minimax, plain_minimax]
    by_cases hterm : (is_terminal b).1 = true
    · rw [if_pos hterm, if_pos hterm]
    · rw [if_neg hterm, if_neg hterm]
      cases maxi with
      | true =>
        rw [if_pos rfl, if_pos rfl]
        cases hws : winShortcut b COMPUTER (search_order b) with
        | some c => rfl
        | none =>
          have heq := @maxLoop_top_eq
            (fun c => (plain_minimax pick d (dropB b c COMPUTER) false).1)
            (fun c a bt => (minimax pick d (dropB b c COMPUTER) a bt false).1)
            (fun c a ha => minimax_fs pick d (dropB b c COMPUTER) false a ⊤ ha)
            (search_order b) ⊥ none bot_lt_top
          rw [heq]
      | false =>
        rw [if_neg (by simp), if_neg (by simp)]
        cases hws : winShortcut b PLAYER (search_order b) with
        | some c => rfl
        | none =>
          have heq := @minLoop_bot_eq
            (fun c => (plain_minimax pick d (dropB b c PLAYER) true).1)
            (fun c a bt => (minimax pick d (dropB b c PLAYER) a bt true).1)
            (fun c bt hbt => minimax_fs pick d (dropB b c PLAYER) true ⊥ bt hbt)
            (search_order b) ⊤ none bot_lt_top
          rw [heq]

lemma plain_minimax_terminal (pick : List ℕ → ℕ) (d : ℕ) {b : Board} (maxi : Bool)
    (h : (is_terminal b).1 = true) :
    plain_minimax pick d b maxi = (leaf_value b, none) := by
  cases d with
  | zero => rfl
  | succ d => rw [plain_minimax, if_pos h]

lemma leaf_value_computer_win {b : Board} (h : is_terminal b = (true, some COMPUTER)) :
    leaf_value b = ⊤ := by
  simp [leaf_value, h, COMPUTER]

lemma leaf_value_player_win {b : Board} (h : is_terminal b = (true, some PLAYER)) :
    leaf_value b = ⊥ := by
  simp [leaf_value, h, PLAYER, COMPUTER]

lemma setCell_self (b : Board) (r c : ℕ) (v : ℤ) : setCell b r c v r c = v := by
  unfold setCell
  rw [if_pos ⟨rfl, rfl⟩]

lemma has_window_setCell {b : Board} {r c : ℕ} {v p : ℤ} (hne : v ≠ p)
    (h : has_window (setCell b r c v) p) : has_window b p := by
  have hcell : ∀ r' c', setCell b r c v r' c' = p → b r' c' = p := by
    intro r' c' h'
    unfold setCell at h'
    by_cases hx : r' = r ∧ c' = c
    · rw [if_pos hx] at h'
      exact absurd h' hne
    · rwa [if_neg hx] at h'
  rcases h with ⟨r0, hr0, c0, hc0, hall⟩ | ⟨c0, hc0, r0, hr0, hall⟩ |
    ⟨r0, c0, hr0, hc0, hall | hall⟩
  · exact Or.inl ⟨r0, hr0, c0, hc0, fun i hi => hcell _ _ (hall i hi)⟩
  · exact Or.inr (Or.inl ⟨c0, hc0, r0, hr0, fun i hi => hcell _ _ (hall i hi)⟩)
  · exact Or.inr (Or.inr ⟨r0, c0, hr0, hc0, Or.inl fun i hi => hcell _ _ (hall i hi)⟩)
  · exact Or.inr (Or.inr ⟨r0, c0, hr0, hc0, Or.inr fun i hi => hcell _ _ (hall i hi)⟩)

lemma simulate_drop_eq {b : Board} {c : ℕ} {p : ℤ} {tmp : Board} {r : ℕ}
    (h : simulate_drop b c p = some (tmp, r)) :
    tmp = setCell b r c p ∧ r < ROW_COUNT ∧ c < COLUMN_COUNT ∧ b r c = EMPTY := by
  unfold simulate_drop at h
  cases hrow : check_available_row b (c : ℤ) with
  | none => rw [hrow] at h; exact absurd h (by simp)
  | some r0 =>
    rw [hrow] at h
    simp only [Option.some.injEq, Prod.mk.injEq] at h
    obtain ⟨htmp, hr⟩ := h
    obtain ⟨-, hcol, hr6, hempty, -⟩ := check_available_row_some hrow
    subst hr
    refine ⟨?_, hr6, by exact_mod_cast hcol, by simpa using hempty⟩
    rw [← htmp]
    unfold place_piece
    simp [Int.toNat_natCast]

lemma wins_now_window {b : Board} {c : ℕ} {p : ℤ} (hw : wins_now b c p = true) :
    ∃ tmp r, simulate_drop b c p = some (tmp, r) ∧ check_win tmp r c = true := by
  unfold wins_now at hw
  cases hd : simulate_drop b c p with
  | none => rw [hd] at hw; exact absurd hw (by simp)
  | some pr =>
    obtain ⟨tmp, r⟩ := pr
    rw [hd] at hw
    exact ⟨tmp, r, rfl, hw⟩

lemma dropB_eq {b : Board} {c : ℕ} {p : ℤ} {tmp : Board} {r : ℕ}
    (h : simulate_drop b c p = some (tmp, r)) : dropB b c p = tmp := by
  unfold dropB
  rw [h]

lemma check_win_has_window {tmp : Board} {r c : ℕ} {p : ℤ}
    (hr : r < ROW_COUNT) (hc : c < COLUMN_COUNT) (hp : tmp r c = p)
    (hw : check_win tmp r c = true) : has_window tmp p := by
  rcases (check_win_iff tmp r c).mp hw with h | h | h
  · exact Or.inl ⟨r, hr, hp ▸ h⟩
  · exact Or.inr (Or.inl ⟨c, hc, hp ▸ h⟩)
  · exact Or.inr (Or.inr (hp ▸ h))

lemma drop_win_terminal_computer {b : Board} {c : ℕ}
    (hterm : (is_terminal b).1 = false) (hw : wins_now b c COMPUTER = true) :
    is_terminal (dropB b c COMPUTER) = (true, some COMPUTER) := by
  obtain ⟨tmp, r, hd, hcw⟩ := wins_now_window hw
  obtain ⟨htmp, hr6, hc7, -⟩ := simulate_drop_eq hd
  rw [dropB_eq hd]
  have hpc : tmp r c = COMPUTER := by rw [htmp]; exact setCell_self b r c COMPUTER
  have hC : check_any_win tmp COMPUTER = true :=
    (check_any_win_iff tmp COMPUTER).mpr (check_win_has_window hr6 hc7 hpc hcw)
  have hP : check_any_win tmp PLAYER = false := by
    rw [← Bool.not_eq_true]
    intro hcon
    have hwin := (check_any_win_iff tmp PLAYER).mp hcon
    rw [htmp] at hwin
    have := has_window_setCell (by decide) hwin
    have hb := (check_any_win_iff b PLAYER).mpr this
    exact absurd hb (by simp [(is_terminal_false_parts hterm).1])
  unfold is_terminal
  rw [if_neg (by simp [hP]), if_pos (by simp [hC])]

lemma drop_win_terminal_player {b : Board} {c : ℕ}
    (hw : wins_now b c PLAYER = true) :
    is_terminal (dropB b c PLAYER) = (true, some PLAYER) := by
  obtain ⟨tmp, r, hd, hcw⟩ := wins_now_window hw
  obtain ⟨htmp, hr6, hc7, -⟩ := simulate_drop_eq hd
  rw [dropB_eq hd]
  have hpc : tmp r c = PLAYER := by rw [htmp]; exact setCell_self b r c PLAYER
  have hP : check_any_win tmp PLAYER = true :=
    (check_any_win_iff tmp PLAYER).mpr (check_win_has_window hr6 hc7 hpc hcw)
  unfold is_terminal
  rw [if_pos (by simp [hP])]

lemma plainMaxFold_some_val (g : ℕ → Score) :
    ∀ (l : List ℕ) (v0 : Score) (best0 : Option ℕ) (v : Score) (c : ℕ),
      plainMaxFold g l v0 best0 = (v, some c) →
      (best0 = some c ∧ v = v0) ∨ g c = v := by
  intro l
  induction l with
  | nil =>
    intro v0 best0 v c h
    simp only [plainMaxFold, Prod.mk.injEq] at h
    exact Or.inl ⟨h.2, h.1.symm⟩
  | cons c0 rest ih =>
    intro v0 best0 v c h
    rw [plainMaxFold_cons] at h
    by_cases hlt : v0 < g c0
    · rw [if_pos hlt] at h
      rcases ih _ _ _ _ h with ⟨h1, h2⟩ | h1
      · obtain rfl : c0 = c := by simpa using h1
        exact Or.inr (h2 ▸ rfl)
      · exact Or.inr h1
    · rw [if_neg hlt] at h
      exact ih _ _ _ _ h

lemma plainMinFold_some_val (g : ℕ → Score) :
    ∀ (l : List ℕ) (v0 : Score) (best0 : Option ℕ) (v : Score) (c : ℕ),
      plainMinFold g l v0 best0 = (v, some c) →
      (best0 = some c ∧ v = v0) ∨ g c = v := by
  intro l
  induction l with
  | nil =>
    intro v0 best0 v c h
    simp only [plainMinFold, Prod.mk.injEq] at h
    exact Or.inl ⟨h.2, h.1.symm⟩
  | cons c0 rest ih =>
    intro v0 best0 v c h
    rw [plainMinFold_cons] at h
    by_cases hlt : g c0 < v0
    · rw [if_pos hlt] at h
      rcases ih _ _ _ _ h with ⟨h1, h2⟩ | h1
      · obtain rfl : c0 = c := by simpa using h1
        exact Or.inr (h2 ▸ rfl)
      · exact Or.inr h1
    · rw [if_neg hlt] at h
      exact ih _ _ _ _ h

lemma plainMaxFold_none_val (g : ℕ → Score) :
    ∀ (l : List ℕ) (v0 : Score) (best0 : Option ℕ) (v : Score),
      plainMaxFold g l v0 best0 = (v, none) →
      best0 = none ∧ v = v0 ∧ ∀ c ∈ l, g c ≤ v0 := by
  intro l
  induction l with
  | nil =>
    intro v0 best0 v h
    simp only [plainMaxFold, Prod.mk.injEq] at h
    exact ⟨h.2, h.1.symm, by simp⟩
  | cons c0 rest ih =>
    intro v0 best0 v h
    rw [plainMaxFold_cons] at h
    by_cases hlt : v0 < g c0
    · rw [if_pos hlt] at h
      obtain ⟨h1, -, -⟩ := ih _ _ _ h
      exact absurd h1 (by simp)
    · rw [if_neg hlt] at h
      obtain ⟨h1, h2, h3⟩ := ih _ _ _ h
      refine ⟨h1, h2, ?_⟩
      intro c hc
      rcases List.mem_cons.mp hc with rfl | hc2
      · exact not_lt.mp hlt
      · exact h3 c hc2

lemma plainMinFold_none_val (g : ℕ → Score) :
    ∀ (l : List ℕ) (v0 : Score) (best0 : Option ℕ) (v : Score),
      plainMinFold g l v0 best0 = (v, none) →
      best0 = none ∧ v = v0 ∧ ∀ c ∈ l, v0 ≤ g c := by
  intro l
  induction l with
  | nil =>
    intro v0 best0 v h
    simp only [plainMinFold, Prod.mk.injEq] at h
    exact ⟨h.2, h.1.symm, by simp⟩
  | cons c0 rest ih =>
    intro v0 best0 v h
    rw [plainMinFold_cons] at h
    by_cases hlt : g c0 < v0
    · rw [if_pos hlt] at h
      obtain ⟨h1, -, -⟩ := ih _ _ _ h
      exact absurd h1 (by simp)
    · rw [if_neg hlt] at h
      obtain ⟨h1, h2, h3⟩ := ih _ _ _ h
      refine ⟨h1, h2, ?_⟩
      intro c hc
      rcases List.mem_cons.mp hc with rfl | hc2
      · exact not_lt.mp hlt
      · exact h3 c hc2

lemma plain_minimax_col_value (pick : List ℕ → ℕ) (hp : pickOK pick) (d : ℕ)
    (b : Board) (maxi : Bool) (hterm : (is_terminal b).1 = false) :
    ∀ c, (plain_minimax pick (d + 1) b maxi).2 = some c →
      (plain_minimax pick d (dropB b c (if maxi then COMPUTER else PLAYER)) (!maxi)).1
        = (plain_minimax pick (d + 1) b maxi).1 := by
  intro c hc
  cases maxi with
  | true =>
    have hsel : (if (true : Bool) = true then COMPUTER else PLAYER) = COMPUTER := rfl
    have hnot : (!true) = false := rfl
    rw [hsel, hnot]
    rw [plain_minimax, if_neg (by simp [hterm]), if_pos rfl] at hc
    rw [plain_minimax, if_neg (by simp [hterm]), if_pos rfl]
    cases hws : winShortcut b COMPUTER (search_order b) with
    | some c0 =>
      rw [hws] at hc
      obtain rfl : c0 = c := by simpa using hc
      obtain ⟨-, hwin⟩ := winShortcut_some hws
      have ht := drop_win_terminal_computer hterm hwin
      rw [plain_minimax_terminal pick d false (by rw [ht]), leaf_value_computer_win ht]
    | none =>
      cases hfold : plainMaxFold
          (fun c => (plain_minimax pick d (dropB b c COMPUTER) false).1)
          (search_order b) ⊥ none with
      | mk v bc =>
        rw [hws, hfold] at hc
        cases bc with
        | some c0 =>
          obtain rfl : c0 = c := by simpa using hc
          rcases plainMaxFold_some_val _ _ _ _ _ _ hfold with ⟨h1, -⟩ | h1
          · exact absurd h1 (by simp)
          · exact h1
        | none =>
          obtain rfl : pick (valid_locations b) = c := by simpa using hc
          obtain ⟨-, hv, hall⟩ := plainMaxFold_none_val _ _ _ _ _ hfold
          have hmem : pick (valid_locations b) ∈ valid_locations b :=
            hp _ (valid_locations_ne_nil_of_not_terminal hterm)
          have hle := hall _ (mem_search_order.mpr hmem)
          rw [hv]
          exact le_bot_iff.mp hle
  | false =>
    have hsel : (if (false : Bool) = true then COMPUTER else PLAYER) = PLAYER := rfl
    have hnot : (!false) = true := rfl
    rw [hsel, hnot]
    rw [plain_minimax, if_neg (by simp [hterm]), if_neg (by simp)] at hc
    rw [plain_minimax, if_neg (by simp [hterm]), if_neg (by simp)]
    cases hws : winShortcut b PLAYER (search_order b) with
    | some c0 =>
      rw [hws] at hc
      obtain rfl : c0 = c := by simpa using hc
      obtain ⟨-, hwin⟩ := winShortcut_some hws
      have ht := drop_win_terminal_player hwin
      rw [plain_minimax_terminal pick d true (by rw [ht]), leaf_value_player_win ht]
    | none =>
      cases hfold : plainMinFold
          (fun c => (plain_minimax pick d (dropB b c PLAYER) true).1)
          (search_order b) ⊤ none with
      | mk v bc =>
        rw [hws, hfold] at hc
        cases bc with
        | some c0 =>
          obtain rfl : c0 = c := by simpa using hc
          rcases plainMinFold_some_val _ _ _ _ _ _ hfold with ⟨h1, -⟩ | h1
          · exact absurd h1 (by simp)
          · exact h1
        | none =>
          obtain rfl : pick (valid_locations b) = c := by simpa using hc
          obtain ⟨-, hv, hall⟩ := plainMinFold_none_val _ _ _ _ _ hfold
          have hmem : pick (valid_locations b) ∈ valid_locations b :=
            hp _ (valid_locations_ne_nil_of_not_terminal hterm)
          have hle := hall _ (mem_search_order.mpr hmem)
          rw [hv]
          exact top_le_iff.mp hle

/-- C5: with the full initial window `(-∞, +∞)`, the alpha-beta `minimax`
returns exactly the same result (same root score and same chosen column) as
the plain reference minimax without pruning; moreover, whenever a column is
chosen (depth ≥ 1, non-terminal board), the plain-minimax value of the child
reached by that column equals the returned optimal root score. -/
theorem alphabeta_matches_plain_minimax (pick : List ℕ → ℕ) (b : Board) (d : ℕ)
    (maxi : Bool) (hp : pickOK pick) :
    minimax pick d b ⊥ ⊤ maxi = plain_minimax pick d b maxi ∧
      (∀ d1, d = d1 + 1 → (is_terminal b).1 = false →
        ∀ c, (minimax pick d b ⊥ ⊤ maxi).2 = some c →
          (plain_minimax pick d1 (dropB b c (if maxi then COMPUTER else PLAYER)) (!maxi)).1
            = (minimax pick d b ⊥ ⊤ maxi).1) := by
  refine ⟨minimax_ab_eq_plain pick d b maxi, ?_⟩
  rintro d1 rfl hterm c hc
  rw [minimax_ab_eq_plain] at hc ⊢
  exact plain_minimax_col_value pick hp d1 b maxi hterm c hc

/-- Witness for C5 on the empty board at depth 1, maximizing side, with the
head-taking choice function. -/
theorem alphabeta_matches_plain_minimax_witness :
    pickOK (fun l => l.headD 0) ∧
      minimax (fun l => l.headD 0) 1 create_board ⊥ ⊤ true
        = plain_minimax (fun l => l.headD 0) 1 create_board true := by
  have hp : pickOK (fun l => l.headD 0) := by
    intro l hl
    cases l with
    | nil => exact absurd rfl hl
    | cons x xs => exact List.mem_cons_self x xs
  exact ⟨hp,
    (alphabeta_matches_plain_minimax (fun l => l.headD 0) create_board 1 true hp).1⟩

/-! ### Claim C10: the search never mutates the caller's board

Python passes numpy arrays by reference and `place_piece` mutates its
argument, so the frame claim is modelled with an explicit heap of arrays: a
store of boards indexed by references plus an allocation counter.
`simulate_drop` copies the referenced array into a fresh cell and mutates only
the copy; the heap embeddings of `minimax`, `winning_moves` and `ai_best_move`
below thread that heap exactly as the source threads its arrays. -/

structure Heap where
  mem : ℕ → Board
  next : ℕ

/-- Allocation of a fresh array holding board `b` (models `board.copy()`). -/
def hAlloc (h : Heap) (b : Board) : Heap × ℕ :=
  (⟨fun i => if i = h.next then b else h.mem i, h.next + 1⟩, h.next)

/-- In-place cell assignment through a reference (models `place_piece`
writing `board[row, column] = player_value`). -/
def hSet (h : Heap) (ref : ℕ) (r c : ℕ) (v : ℤ) : Heap :=
  ⟨fun i => if i = ref then setCell (h.mem i) r c v else h.mem i, h.next⟩

/-- Heap embedding of `simulate_drop`: read the landing row from the caller's
array, copy it, and place only into the fresh copy. -/
def hSimulate_drop (h : Heap) (ref : ℕ) (col : ℕ) (pv : ℤ) :
    Heap × Option (ℕ × ℕ) :=
  match check_available_row (h.mem ref) col with
  | none => (h, none)
  | some r =>
    match hAlloc h (h.mem ref) with
    | (h1, tref) => (hSet h1 tref r col pv, some (tref, r))

/-- Heap embedding of the early-shortcut loops of `minimax`. -/
def hWinShortcut (h : Heap) (ref : ℕ) (pv : ℤ) : List ℕ → Heap × Option ℕ
  | [] => (h, none)
  | c :: rest =>
    match hSimulate_drop h ref c pv with
    | (h1, some (tref, r)) =>
      if check_win (h1.mem tref) r c then (h1, some c)
      else hWinShortcut h1 ref pv rest
    | (h1, none) => hWinShortcut h1 ref pv rest

/-- Heap-threading maximizing loop of `minimax`. -/
def hMaxLoop (F : Heap → ℕ → Score → Score → Heap × Score) :
    Heap → List ℕ → Score → Option ℕ → Score → Score → Heap × (Score × Option ℕ)
  | h, [], value, best, _, _ => (h, (value, best))
  | h, c :: rest, value, best, alpha, beta =>
    match F h c alpha beta with
    | (h1, ns) =>
      let value1 := if value < ns then ns else value
      let best1 := if value < ns then some c else best
      let alpha1 := max alpha value1
      if beta ≤ alpha1 then (h1, (value1, best1))
      else hMaxLoop F h1 rest value1 best1 alpha1 beta

/-- Heap-threading minimizing loop of `minimax`. -/
def hMinLoop (F : Heap → ℕ → Score → Score → Heap × Score) :
    Heap → List ℕ → Score → Option ℕ → Score → Score → Heap × (Score × Option ℕ)
  | h, [], value, best, _, _ => (h, (value, best))
  | h, c :: rest, value, best, alpha, beta =>
    match F h c alpha beta with
    | (h1, ns) =>
      let value1 := if ns < value then ns else value
      let best1 := if ns < value then some c else best
      let beta1 := min beta value1
      if beta1 ≤ alpha then (h1, (value1, best1))
      else hMinLoop F h1 rest value1 best1 alpha beta1

/-- Heap embedding of `minimax`: the live board is only ever read through
`ref`; every drop is simulated on a fresh copy. -/
def hMinimax (pick : List ℕ → ℕ) :
    ℕ → Heap → ℕ → Score → Score → Bool → Heap × (Score × Option ℕ)
  | 0, h, ref, _, _, _ => (h, (leaf_value (h.mem ref), none))
  | d + 1, h, ref, alpha, beta, maximizing =>
    if (is_terminal (h.mem ref)).1 then (h, (leaf_value (h.mem ref), none))
    else
      let valid := valid_locations (h.mem ref)
      let order := ordered_columns.filter fun c => valid.contains c
      if maximizing then
        match hWinShortcut h ref COMPUTER order with
        | (h1, some c) => (h1, ((⊤ : Score), some c))
        | (h1, none) =>
          match hMaxLoop (fun h2 c a bt =>
              match hSimulate_drop h2 ref c COMPUTER with
              | (h3, some (tref, _)) =>
                match hMinimax pick d h3 tref a bt false with
                | (h4, sc) => (h4, sc.1)
              | (h3, none) => (h3, ⊥))
            h1 order ⊥ none alpha beta with
          | (h2, (v, some c)) => (h2, (v, some c))
          | (h2, (v, none)) => (h2, (v, some (pick valid)))
      else
        match hWinShortcut h ref PLAYER order with
        | (h1, some c) => (h1, ((⊥ : Score), some c))
        | (h1, none) =>
          match hMinLoop (fun h2 c a bt =>
              match hSimulate_drop h2 ref c PLAYER with
              | (h3, some (tref, _)) =>
                match hMinimax pick d h3 tref a bt true with
                | (h4, sc) => (h4, sc.1)
              | (h3, none) => (h3, ⊤))
            h1 order ⊤ none alpha beta with
          | (h2, (v, some c)) => (h2, (v, some c))
          | (h2, (v, none)) => (h2, (v, some (pick valid)))

/-- Heap embedding of the `winning_moves` filter loop. -/
def hWinning_moves_loop (ref : ℕ) (pv : ℤ) : Heap → List ℕ → Heap × List ℕ
  | h, [] => (h, [])
  | h, c :: rest =>
    match hSimulate_drop h ref c pv with
    | (h1, res) =>
      let keep : Bool :=
        match res with
        | some (tref, r) => check_win (h1.mem tref) r c
        | none => false
      match hWinning_moves_loop ref pv h1 rest with
      | (h2, l) => (h2, if keep then c :: l else l)

/-- Heap embedding of `winning_moves`. -/
def hWinning_moves (h : Heap) (ref : ℕ) (pv : ℤ) : Heap × List ℕ :=
  hWinning_moves_loop ref pv h (valid_locations (h.mem ref))

/-- Heap embedding of `ai_best_move`. -/
def hAi_best_move (pick : List ℕ → ℕ) (h : Heap) (ref : ℕ) : Heap × ℕ :=
  match hWinning_moves h ref COMPUTER with
  | (h1, c :: _) => (h1, c)
  | (h1, []) =>
    match hWinning_moves h1 ref PLAYER with
    | (h2, c :: _) => (h2, c)
    | (h2, []) =>
      match hMinimax pick AI_DEPTH h2 ref ⊥ ⊤ true with
      | (h3, (_, some c)) => (h3, c)
      | (h3, (_, none)) => (h3, pick (valid_locations (h3.mem ref)))

/-- Frame relation: the final heap keeps every array allocated before the call
intact, and only grows the allocation counter. -/
def preserves (h h2 : Heap) : Prop :=
  h.next ≤ h2.next ∧ ∀ i < h.next, h2.mem i = h.mem i

lemma preserves_refl (h : Heap) : preserves h h := ⟨le_refl _, fun _ _ => rfl⟩

lemma preserves_trans {h1 h2 h3 : Heap} (a : preserves h1 h2) (b : preserves h2 h3) :
    preserves h1 h3 := by
  refine ⟨le_trans a.1 b.1, ?_⟩
  intro i hi
  rw [b.2 i (lt_of_lt_of_le hi a.1), a.2 i hi]

lemma hSimulate_drop_preserves (h : Heap) (ref : ℕ) (col : ℕ) (pv : ℤ) :
    preserves h (hSimulate_drop h ref col pv).1 := by
  unfold hSimulate_drop
  cases check_available_row (h.mem ref) col with
  | none => exact preserves_refl h
  | some r =>
    refine ⟨by simp [hAlloc, hSet], ?_⟩
    intro i hi
    simp only [hAlloc, hSet]
    rw [if_neg (by omega), if_neg (by omega)]

lemma hSimulate_drop_fresh {h : Heap} {ref col : ℕ} {pv : ℤ} {tref r : ℕ}
    (hs : (hSimulate_drop h ref col pv).2 = some (tref, r)) :
    tref < (hSimulate_drop h ref col pv).1.next := by
  unfold hSimulate_drop at hs ⊢
  cases hrow : check_available_row (h.mem ref) (col : ℤ) with
  | none =>
    rw [hrow] at hs
    exact absurd hs (by simp)
  | some r0 =>
    rw [hrow] at hs
    simp only [hAlloc, hSet, Option.some.injEq, Prod.mk.injEq] at hs ⊢
    omega

lemma hWinShortcut_preserves (ref : ℕ) (pv : ℤ) :
    ∀ (l : List ℕ) (h : Heap), preserves h (hWinShortcut h ref pv l).1 := by
  intro l
  induction l with
  | nil => intro h; exact preserves_refl h
  | cons c rest ih =>
    intro h
    rw [hWinShortcut]
    cases hs : hSimulate_drop h ref c pv with
    | mk h1 res =>
      have hp : preserves h h1 := by
        have := hSimulate_drop_preserves h ref c pv
        rw [hs] at this
        exact this
      cases res with
      | some pr =>
        obtain ⟨tref, r⟩ := pr
        dsimp only
        by_cases hw : check_win (h1.mem tref) r c
        · rw [if_pos hw]
          exact hp
        · rw [if_neg hw]
          exact preserves_trans hp (ih h1)
      | none => exact preserves_trans hp (ih h1)

lemma hMaxLoop_frame {F : Heap → ℕ → Score → Score → Heap × Score}
    (HF : ∀ h c a bt, preserves h (F h c a bt).1) :
    ∀ (l : List ℕ) (h : Heap) (v : Score) (best : Option ℕ) (a bt : Score),
      preserves h (hMaxLoop F h l v best a bt).1 := by
  intro l
  induction l with
  | nil => intro h v best a bt; exact preserves_refl h
  | cons c rest ih =>
    intro h v best a bt
    rw [hMaxLoop]
    cases hs : F h c a bt with
    | mk h1 ns =>
      have hp : preserves h h1 := by
        have := HF h c a bt
        rw [hs] at this
        exact this
      dsimp only
      by_cases hbr : bt ≤ max a (if v < ns then ns else v)
      · rw [if_pos hbr]
        exact hp
      · rw [if_neg hbr]
        exact preserves_trans hp (ih h1 _ _ _ _)

lemma hMinLoop_frame {F : Heap → ℕ → Score → Score → Heap × Score}
    (HF : ∀ h c a bt, preserves h (F h c a bt).1) :
    ∀ (l : List ℕ) (h : Heap) (v : Score) (best : Option ℕ) (a bt : Score),
      preserves h (hMinLoop F h l v best a bt).1 := by
  intro l
  induction l with
  | nil => intro h v best a bt; exact preserves_refl h
  | cons c rest ih =>
    intro h v best a bt
    rw [hMinLoop]
    cases hs : F h c a bt with
    | mk h1 ns =>
      have hp : preserves h h1 := by
        have := HF h c a bt
        rw [hs] at this
        exact this
      dsimp only
      by_cases hbr : min bt (if ns < v then ns else v) ≤ a
      · rw [if_pos hbr]
        exact hp
      · rw [if_neg hbr]
        exact preserves_trans hp (ih h1 _ _ _ _)

lemma hMinimax_frame (pick : List ℕ → ℕ) :
    ∀ (d : ℕ) (h : Heap) (ref : ℕ) (α β : Score) (maxi : Bool),
      preserves h (hMinimax pick d h ref α β maxi).1 := by
  intro d
  induction d with
  | zero => intro h ref α β maxi; exact preserves_refl h
  | succ d ih =>
    intro h ref α β maxi
    have hFmax : ∀ (h2 : Heap) (c : ℕ) (a bt : Score),
        preserves h2 ((fun h2 c a bt =>
          match hSimulate_drop h2 ref c COMPUTER with
          | (h3, some (tref, _)) =>
            match hMinimax pick d h3 tref a bt false with
            | (h4, sc) => (h4, sc.1)
          | (h3, none) => (h3, (⊥ : Score))) h2 c a bt).1 := by
      intro h2 c a bt
      dsimp only
      cases hs : hSimulate_drop h2 ref c COMPUTER with
      | mk h3 res =>
        have hp : preserves h2 h3 := by
          have := hSimulate_drop_preserves h2 ref c COMPUTER
          rw [hs] at this
          exact this
        cases res with
        | some pr =>
          obtain ⟨tref, r⟩ := pr
          dsimp only
          cases hm : hMinimax pick d h3 tref a bt false with
          | mk h4 sc =>
            have hp2 : preserves h3 h4 := by
              have := ih h3 tref a bt false
              rw [hm] at this
              exact this
            exact preserves_trans hp hp2
        | none => exact hp
    have hFmin : ∀ (h2 : Heap) (c : ℕ) (a bt : Score),
        preserves h2 ((fun h2 c a bt =>
          match hSimulate_drop h2 ref c PLAYER with
          | (h3, some (tref, _)) =>
            match hMinimax pick d h3 tref a bt true with
            | (h4, sc) => (h4, sc.1)
          | (h3, none) => (h3, (⊤ : Score))) h2 c a bt).1 := by
      intro h2 c a bt
      dsimp only
      cases hs : hSimulate_drop h2 ref c PLAYER with
      | mk h3 res =>
        have hp : preserves h2 h3 := by
          have := hSimulate_drop_preserves h2 ref c PLAYER
          rw [hs] at this
          exact this
        cases res with
        | some pr =>
          obtain ⟨tref, r⟩ := pr
          dsimp only
          cases hm : hMinimax pick d h3 tref a bt true with
          | mk h4 sc =>
            have hp2 : preserves h3 h4 := by
              have := ih h3 tref a bt true
              rw [hm] at this
              exact this
            exact preserves_trans hp hp2
        | none => exact hp
    rw [hMinimax]
    by_cases hterm : (is_terminal (h.mem ref)).1 = true
    · rw [if_pos hterm]
      exact preserves_refl h
    · rw [if_neg hterm]
      cases maxi with
      | true =>
        rw [if_pos rfl]
        cases hws : hWinShortcut h ref COMPUTER
            (ordered_columns.filter fun c => (valid_locations (h.mem ref)).contains c) with
        | mk h1 shortcol =>
          have hp1 : preserves h h1 := by
            have := hWinShortcut_preserves ref COMPUTER
              (ordered_columns.filter fun c => (valid_locations (h.mem ref)).contains c) h
            rw [hws] at this
            exact this
          cases shortcol with
          | some c => exact hp1
          | none =>
            dsimp only
            cases hloop : hMaxLoop (fun h2 c a bt =>
                match hSimulate_drop h2 ref c COMPUTER with
                | (h3, some (tref, _)) =>
                  match hMinimax pick d h3 tref a bt false with
                  | (h4, sc) => (h4, sc.1)
                | (h3, none) => (h3, ⊥))
              h1 (ordered_columns.filter fun c => (valid_locations (h.mem ref)).contains c)
              ⊥ none α β with
            | mk h2 res =>
              have hp2 : preserves h1 h2 := by
                have := hMaxLoop_frame hFmax
                  (ordered_columns.filter fun c => (valid_locations (h.mem ref)).contains c)
                  h1 ⊥ none α β
                rw [hloop] at this
                exact this
              obtain ⟨v, bc⟩ := res
              cases bc with
              | some c => exact preserves_trans hp1 hp2
              | none => exact preserves_trans hp1 hp2
      | false =>
        rw [if_neg (by simp)]
        cases hws : hWinShortcut h ref PLAYER
            (ordered_columns.filter fun c => (valid_locations (h.mem ref)).contains c) with
        | mk h1 shortcol =>
          have hp1 : preserves h h1 := by
            have := hWinShortcut_preserves ref PLAYER
              (ordered_columns.filter fun c => (valid_locations (h.mem ref)).contains c) h
            rw [hws] at this
            exact this
          cases shortcol with
          | some c => exact hp1
          | none =>
            dsimp only
            cases hloop : hMinLoop (fun h2 c a bt =>
                match hSimulate_drop h2 ref c PLAYER with
                | (h3, some (tref, _)) =>
                  match hMinimax pick d h3 tref a bt true with
                  | (h4, sc) => (h4, sc.1)
                | (h3, none) => (h3, ⊤))
              h1 (ordered_columns.filter fun c => (valid_locations (h.mem ref)).contains c)
              ⊤ none α β with
            | mk h2 res =>
              have hp2 : preserves h1 h2 := by
                have := hMinLoop_frame hFmin
                  (ordered_columns.filter fun c => (valid_locations (h.mem ref)).contains c)
                  h1 ⊤ none α β
                rw [hloop] at this
                exact this
              obtain ⟨v, bc⟩ := res
              cases bc with
              | some c => exact preserves_trans hp1 hp2
              | none => exact preserves_trans hp1 hp2

lemma hWinning_moves_loop_frame (ref : ℕ) (pv : ℤ) :
    ∀ (l : List ℕ) (h : Heap), preserves h (hWinning_moves_loop ref pv h l).1 := by
  intro l
  induction l with
  | nil => intro h; exact preserves_refl h
  | cons c rest ih =>
    intro h
    rw [hWinning_moves_loop]
    cases hs : hSimulate_drop h ref c pv with
    | mk h1 res =>
      have hp : preserves h h1 := by
        have := hSimulate_drop_preserves h ref c pv
        rw [hs] at this
        exact this
      dsimp only
      cases hrec : hWinning_moves_loop ref pv h1 rest with
      | mk h2 l2 =>
        have hp2 : preserves h1 h2 := by
          have := ih h1
          rw [hrec] at this
          exact this
        exact preserves_trans hp hp2

lemma hAi_best_move_frame (pick : List ℕ → ℕ) (h : Heap) (ref : ℕ) :
    preserves h (hAi_best_move pick h ref).1 := by
  unfold hAi_best_move hWinning_moves
  cases h1c : hWinning_moves_loop ref COMPUTER h (valid_locations (h.mem ref)) with
  | mk h1 l1 =>
    have hp1 : preserves h h1 := by
      have := hWinning_moves_loop_frame ref COMPUTER (valid_locations (h.mem ref)) h
      rw [h1c] at this
      exact this
    cases l1 with
    | cons c rest => exact hp1
    | nil =>
      dsimp only
      cases h2c : hWinning_moves_loop ref PLAYER h1 (valid_locations (h1.mem ref)) with
      | mk h2 l2 =>
        have hp2 : preserves h1 h2 := by
          have := hWinning_moves_loop_frame ref PLAYER (valid_locations (h1.mem ref)) h1
          rw [h2c] at this
          exact this
        cases l2 with
        | cons c rest => exact preserves_trans hp1 hp2
        | nil =>
          dsimp only
          cases h3c : hMinimax pick AI_DEPTH h2 ref ⊥ ⊤ true with
          | mk h3 res =>
            have hp3 : preserves h2 h3 := by
              have := hMinimax_frame pick AI_DEPTH h2 ref ⊥ ⊤ true
              rw [h3c] at this
              exact this
            obtain ⟨v, bc⟩ := res
            cases bc with
            | some c => exact preserves_trans (preserves_trans hp1 hp2) hp3
            | none => exact preserves_trans (preserves_trans hp1 hp2) hp3

/-- C10: for every heap of boards, every allocated reference, every depth,
window and side, the heap-level `minimax` and `ai_best_move` leave the
caller's array — and every other previously allocated array — exactly as they
found it: all simulated drops write only to fresh copies made by
`simulate_drop`. -/
theorem search_never_mutates_caller_board (pick : List ℕ → ℕ) (d : ℕ) (h : Heap)
    (ref : ℕ) (α β : Score) (maxi : Bool) (href : ref < h.next) :
    ((hMinimax pick d h ref α β maxi).1).mem ref = h.mem ref ∧
      ((hAi_best_move pick h ref).1).mem ref = h.mem ref :=
  ⟨(hMinimax_frame pick d h ref α β maxi).2 ref href,
    (hAi_best_move_frame pick h ref).2 ref href⟩

/-- Witness for C10 on a one-board heap at depth 1. -/
theorem search_never_mutates_caller_board_witness :
    (0 < (Heap.mk (fun _ => create_board) 1).next) ∧
      ((hMinimax (fun l => l.headD 0) 1 (Heap.mk (fun _ => create_board) 1) 0
          ⊥ ⊤ true).1).mem 0 = (Heap.mk (fun _ => create_board) 1).mem 0 ∧
      ((hAi_best_move (fun l => l.headD 0) (Heap.mk (fun _ => create_board) 1) 0).1).mem 0
        = (Heap.mk (fun _ => create_board) 1).mem 0 :=
  ⟨by decide,
    search_never_mutates_caller_board (fun l => l.headD 0) 1
      (Heap.mk (fun _ => create_board) 1) 0 ⊥ ⊤ true (by decide)⟩

end Connect4
